import Mathlib

/-!
The package gmsm-lk: keys and licenses over SM2.

A shallow embedding of `keys.go` and `license.go`.

Conventions of the embedding.

* A Go `[]byte` is a `List Byte`; a Go `string` is the list of its bytes.
* A `*big.Int` that is known to be set is an `Int`; one that may be `nil`
  (a field of a freshly decoded record) is an `Option Int`.
* A Go function returning `(*T, error)` returns a pair
  `Option T × Option Error`, `none` standing for `nil` on either side.
* A Go function that can abort with a run-time panic returns its result inside
  `Option`; the outer `none` is the panic.
* The functions of `github.com/emmansun/gmsm`, the text encodings of the Go
  standard library and the record codec (`toBytes` / `fromBytes`) are not part
  of these two files; they are arguments of the embedding (`Crypto`,
  `Encodings`, `Codec`, `LicenseCodec`) and are taken to return a value on
  every input.
  What is assumed of them is stated as a contract where a theorem needs it.
-/

namespace Lk

/-- One octet. -/
abbrev Byte := Fin 256

/-! ## `math/big` -/

/-- The `n` low-order base-256 digits of `v`, most significant first. -/
def bigEndian : Nat → Nat → List Byte
  | 0, _ => []
  | n + 1, v => bigEndian n (v / 256) ++ [⟨v % 256, Nat.mod_lt _ (by decide)⟩]

/-- Method `(*big.Int).FillBytes(buf)` with `len(buf) = n`: the absolute value
of `x` as a zero-extended big-endian slice; panics (`none`) when the absolute
value does not fit in `buf`. -/
def FillBytes (x : Int) (n : Nat) : Option (List Byte) :=
  if x.natAbs < 256 ^ n then some (bigEndian n x.natAbs) else none

/-- Method `(*big.Int).SetBytes(buf)`: `buf` read as a big-endian unsigned integer. -/
def SetBytes (buf : List Byte) : Int :=
  Int.ofNat (buf.foldl (fun acc b => acc * 256 + b.val) 0)

/-! ## Errors and keys -/

/-- Error values. `ErrInvalidPublicKey` is the package's own sentinel
(`errors.New("lk: invalid public key")`); every other error value comes out of
a library call and is carried through unchanged. -/
inductive Error where
  | ErrInvalidPublicKey
  | external (msg : String)
deriving DecidableEq, Repr

/-- Type `PublicKey{X, Y *big.Int}`. -/
structure PublicKey where
  X : Int
  Y : Int
deriving DecidableEq, Repr

/-- Type `PrivateKey{sm2.PrivateKey}`: the scalar `D` and the embedded public
point `PublicKey.X`, `PublicKey.Y`. -/
structure PrivateKey where
  D : Int
  X : Int
  Y : Int
deriving DecidableEq, Repr

/-- Type `pkContainer{Pub []byte; D *big.Int}`. -/
structure pkContainer where
  Pub : List Byte
  D : Option Int
deriving DecidableEq, Repr

/-- The primitives of `github.com/emmansun/gmsm` (`sm2`, `sm3`) that the package
calls. `rand.Reader` is made explicit as the entropy argument of
`SignWithSM2`; a `nil` identifier is `none`. -/
structure Crypto where
  /-- Call `sm2.P256().IsOnCurve(x, y)`. -/
  IsOnCurve : Int → Int → Bool
  /-- Call `sm2.NewPrivateKeyFromInt(d)`. -/
  NewPrivateKeyFromInt : Option Int → Except Error PrivateKey
  /-- Call `sm2.NewPublicKey(bytes)`. -/
  NewPublicKey : List Byte → Except Error PublicKey
  /-- Call `sm2.SignWithSM2(rand, priv, uid, hash)`. -/
  SignWithSM2 : List Byte → PrivateKey → Option (List Byte) → List Byte →
    Except Error (Int × Int)
  /-- Call `sm2.VerifyWithSM2(pub, uid, hash, r, s)` on `r` and `s` that are set.
  The library dereferences both, so a nil `r` or `s` is a panic; that case is
  handled where the call is made (`License.Verify`), and this function is only
  ever applied to `some r` and `some s`. -/
  VerifyWithSM2 : PublicKey → Option (List Byte) → List Byte →
    Option Int → Option Int → Bool
  /-- Calls `sm3.New()`, `Write(data)`, `Sum(nil)`: the digest of `data`. -/
  sm3 : List Byte → List Byte

/-- One text encoding of the Go standard library: `EncodeToString` and
`DecodeString` (the decoder's partial output on failure is never used by the
package and is left out). -/
structure TextEncoding where
  EncodeToString : List Byte → List Byte
  DecodeString : List Byte → Except Error (List Byte)

/-- The three encodings the package uses: `base64.StdEncoding`,
`base32.StdEncoding` and `encoding/hex`. -/
structure Encodings where
  base64 : TextEncoding
  base32 : TextEncoding
  hex : TextEncoding

/-- The record codec of the package, `toBytes(obj)` and `fromBytes(obj, b)`, at
the record type `*pkContainer`; the two functions are not among the source
files. `fromBytes` decodes into the record it is given and returns the record
as it stands afterwards together with the error. -/
structure Codec where
  toBytes : pkContainer → List Byte × Option Error
  fromBytes : pkContainer → List Byte → pkContainer × Option Error

/-! ## `keys.go`: private keys -/

/-- Source function `PrivateKey.ToBytes`. -/
def PrivateKey.ToBytes (codec : Codec) (k : PrivateKey) :
    Option (List Byte × Option Error) :=
  match FillBytes k.X 32 with
  | none => none
  | some xs =>
    match FillBytes k.Y 32 with
    | none => none
    | some ys => some (codec.toBytes { Pub := (0x04 : Byte) :: (xs ++ ys), D := some k.D })

/-- Source function `PrivateKey.ToB64String`. -/
def PrivateKey.ToB64String (enc : Encodings) (codec : Codec) (k : PrivateKey) :
    Option (List Byte × Option Error) :=
  match k.ToBytes codec with
  | none => none
  | some (_, some err) => some ([], some err)
  | some (b, none) => some (enc.base64.EncodeToString b, none)

/-- Source function `PrivateKey.ToB32String`. -/
def PrivateKey.ToB32String (enc : Encodings) (codec : Codec) (k : PrivateKey) :
    Option (List Byte × Option Error) :=
  match k.ToBytes codec with
  | none => none
  | some (_, some err) => some ([], some err)
  | some (b, none) => some (enc.base32.EncodeToString b, none)

/-- Source function `PrivateKey.ToHexString`. -/
def PrivateKey.ToHexString (enc : Encodings) (codec : Codec) (k : PrivateKey) :
    Option (List Byte × Option Error) :=
  match k.ToBytes codec with
  | none => none
  | some (_, some err) => some ([], some err)
  | some (b, none) => some (enc.hex.EncodeToString b, none)

/-- The comparison loop of `PrivateKeyFromBytes`,
`for i := range expectedPub { if expectedPub[i] != c.Pub[i] { return nil, ErrInvalidPublicKey } }`,
entered at index `i` with the rest of `expectedPub` still to visit: `some true`
when the loop runs to its end, `some false` when it returns the error, `none`
when `c.Pub[i]` is out of range. -/
def comparePub (pub : List Byte) : List Byte → Nat → Option Bool
  | [], _ => some true
  | e :: rest, i =>
    match pub[i]? with
    | none => none
    | some p => if e ≠ p then some false else comparePub pub rest (i + 1)

/-- Source function `PrivateKeyFromBytes`. -/
def PrivateKeyFromBytes (codec : Codec) (lib : Crypto) (b : List Byte) :
    Option (Option PrivateKey × Option Error) :=
  match codec.fromBytes { Pub := [], D := none } b with
  | (_, some err) => some (none, some err)
  | (c, none) =>
    match lib.NewPrivateKeyFromInt c.D with
    | .error err => some (none, some err)
    | .ok sm2Priv =>
      match FillBytes sm2Priv.X 32 with
      | none => none
      | some xs =>
        match FillBytes sm2Priv.Y 32 with
        | none => none
        | some ys =>
          match comparePub c.Pub ((0x04 : Byte) :: (xs ++ ys)) 0 with
          | none => none
          | some false => some (none, some Error.ErrInvalidPublicKey)
          | some true => some (some sm2Priv, none)

/-- Source function `PrivateKeyFromB64String`. -/
def PrivateKeyFromB64String (enc : Encodings) (codec : Codec) (lib : Crypto)
    (str : List Byte) : Option (Option PrivateKey × Option Error) :=
  match enc.base64.DecodeString str with
  | .error err => some (none, some err)
  | .ok b => PrivateKeyFromBytes codec lib b

/-- Source function `PrivateKeyFromB32String`. -/
def PrivateKeyFromB32String (enc : Encodings) (codec : Codec) (lib : Crypto)
    (str : List Byte) : Option (Option PrivateKey × Option Error) :=
  match enc.base32.DecodeString str with
  | .error err => some (none, some err)
  | .ok b => PrivateKeyFromBytes codec lib b

/-- Source function `PrivateKeyFromHexString`. -/
def PrivateKeyFromHexString (enc : Encodings) (codec : Codec) (lib : Crypto)
    (str : List Byte) : Option (Option PrivateKey × Option Error) :=
  match enc.hex.DecodeString str with
  | .error err => some (none, some err)
  | .ok b => PrivateKeyFromBytes codec lib b

/-- Source function `PrivateKey.GetPublicKey`: fresh copies of the two coordinates. -/
def PrivateKey.GetPublicKey (k : PrivateKey) : PublicKey :=
  { X := k.X, Y := k.Y }

/-! ## `keys.go`: public keys -/

/-- Source function `PublicKey.ToBytes`: `pkBytes := make([]byte, 65)`, `pkBytes[0] = 0x04`,
`k.X.FillBytes(pkBytes[1:33])`, `k.Y.FillBytes(pkBytes[33:65])`. -/
def PublicKey.ToBytes (k : PublicKey) : Option (List Byte) :=
  match FillBytes k.X 32 with
  | none => none
  | some xs =>
    match FillBytes k.Y 32 with
    | none => none
    | some ys => some ((0x04 : Byte) :: (xs ++ ys))

/-- Go slice expression `b[lo:hi]` for `lo ≤ hi ≤ len(b)`. -/
def slice (b : List Byte) (lo hi : Nat) : List Byte :=
  (b.drop lo).take (hi - lo)

/-- Source function `PublicKeyFromBytes`. -/
def PublicKeyFromBytes (lib : Crypto) (b : List Byte) : Option PublicKey × Option Error :=
  if b.length ≠ 65 || b[0]? ≠ some (0x04 : Byte) then
    (none, some Error.ErrInvalidPublicKey)
  else
    let x := SetBytes (slice b 1 33)
    let y := SetBytes (slice b 33 65)
    if !lib.IsOnCurve x y then
      (none, some Error.ErrInvalidPublicKey)
    else
      (some { X := x, Y := y }, none)

/-- Source function `PublicKey.ToB64String`. -/
def PublicKey.ToB64String (enc : Encodings) (k : PublicKey) : Option (List Byte) :=
  match k.ToBytes with
  | none => none
  | some b => some (enc.base64.EncodeToString b)

/-- Source function `PublicKey.ToB32String`. -/
def PublicKey.ToB32String (enc : Encodings) (k : PublicKey) : Option (List Byte) :=
  match k.ToBytes with
  | none => none
  | some b => some (enc.base32.EncodeToString b)

/-- Source function `PublicKey.ToHexString`. -/
def PublicKey.ToHexString (enc : Encodings) (k : PublicKey) : Option (List Byte) :=
  match k.ToBytes with
  | none => none
  | some b => some (enc.hex.EncodeToString b)

/-- Source function `PublicKeyFromB64String`. -/
def PublicKeyFromB64String (enc : Encodings) (lib : Crypto) (str : List Byte) :
    Option PublicKey × Option Error :=
  match enc.base64.DecodeString str with
  | .error err => (none, some err)
  | .ok b => PublicKeyFromBytes lib b

/-- Source function `PublicKeyFromB32String`. -/
def PublicKeyFromB32String (enc : Encodings) (lib : Crypto) (str : List Byte) :
    Option PublicKey × Option Error :=
  match enc.base32.DecodeString str with
  | .error err => (none, some err)
  | .ok b => PublicKeyFromBytes lib b

/-- Source function `PublicKeyFromHexString`. -/
def PublicKeyFromHexString (enc : Encodings) (lib : Crypto) (str : List Byte) :
    Option PublicKey × Option Error :=
  match enc.hex.DecodeString str with
  | .error err => (none, some err)
  | .ok b => PublicKeyFromBytes lib b

/-! ## `license.go` -/

/-- Type `License{Data []byte; R, S *big.Int}`. -/
structure License where
  Data : List Byte
  R : Option Int
  S : Option Int
deriving DecidableEq, Repr

/-- Source function `License.hash`: `h := sm3.New()`, `h.Write(l.Data)`, `h.Sum(nil)`. The
`Write` of a `hash.Hash` never returns an error, so the error branch is not
taken. -/
def License.hash (lib : Crypto) (l : License) : Except Error (List Byte) :=
  .ok (lib.sm3 l.Data)

/-- Source function `NewLicense`, with the entropy read from `rand.Reader` as
`rnd`. The source passes `&k.key.PrivateKey` to `sm2.SignWithSM2`; the type
`PrivateKey` of `keys.go` has no field `key` (it embeds `sm2.PrivateKey`), so
the line does not type-check as written. It is read here as the key of `k`
itself, the only key in scope. -/
def NewLicense (lib : Crypto) (rnd : List Byte) (k : PrivateKey) (data : List Byte) :
    Option License × Option Error :=
  let l : License := { Data := data, R := none, S := none }
  match l.hash lib with
  | .error err => (none, some err)
  | .ok h =>
    match lib.SignWithSM2 rnd k none h with
    | .error err => (none, some err)
    | .ok (r, s) => (some { l with R := some r, S := some s }, none)

/-- Source function `License.Verify`. The last line,
`return sm2.VerifyWithSM2(pub, nil, h, l.R, l.S), nil`, panics on a nil
pointer when `l.R` or `l.S` is nil. -/
def License.Verify (lib : Crypto) (l : License) (k : PublicKey) :
    Option (Bool × Option Error) :=
  match l.hash lib with
  | .error err => some (false, some err)
  | .ok h =>
    match k.ToBytes with
    | none => none
    | some kb =>
      match lib.NewPublicKey kb with
      | .error err => some (false, some err)
      | .ok pub =>
        match l.R, l.S with
        | some _, some _ => some (lib.VerifyWithSM2 pub none h l.R l.S, none)
        | _, _ => none

/-- The helpers of the package that decode into a `*License`: `fromBytes(l, b)`,
`fromB64String(l, s)`, `fromB32String(l, s)` and `fromHexString(l, s)`; they
are not among the source files. Each decodes into the record it is given and
returns the record as it stands afterwards together with the error. -/
structure LicenseCodec where
  fromBytes : License → List Byte → License × Option Error
  fromB64String : License → List Byte → License × Option Error
  fromB32String : License → List Byte → License × Option Error
  fromHexString : License → List Byte → License × Option Error

/-- Source function `LicenseFromBytes`: `l := &License{}`, then
`return l, fromBytes(l, b)`. The pointer `l` is returned whatever the error. -/
def LicenseFromBytes (lc : LicenseCodec) (b : List Byte) : Option License × Option Error :=
  let l : License := { Data := [], R := none, S := none }
  let r := lc.fromBytes l b
  (some r.1, r.2)

/-- Source function `LicenseFromB64String`: `l := &License{}`, then
`return l, fromB64String(l, str)`. -/
def LicenseFromB64String (lc : LicenseCodec) (str : List Byte) :
    Option License × Option Error :=
  let l : License := { Data := [], R := none, S := none }
  let r := lc.fromB64String l str
  (some r.1, r.2)

/-- Source function `LicenseFromB32String`: `l := &License{}`, then
`return l, fromB32String(l, str)`. The comment in the source says base64; the
helper called is the base32 one. -/
def LicenseFromB32String (lc : LicenseCodec) (str : List Byte) :
    Option License × Option Error :=
  let l : License := { Data := [], R := none, S := none }
  let r := lc.fromB32String l str
  (some r.1, r.2)

/-- Source function `LicenseFromHexString`: `l := &License{}`, then
`return l, fromHexString(l, str)`. -/
def LicenseFromHexString (lc : LicenseCodec) (str : List Byte) :
    Option License × Option Error :=
  let l : License := { Data := [], R := none, S := none }
  let r := lc.fromHexString l str
  (some r.1, r.2)

/-! ## Reference implementations of the library interfaces

The functions above take their libraries as arguments. This section gives one
implementation of each interface: RFC 4648 text encodings, the curve
sm2p256v1, and a length-prefixed record codec. -/

/-- Go conversion `byte(n)`. -/
def byte (n : Nat) : Byte := ⟨n % 256, Nat.mod_lt _ (by decide)⟩

/-- The bytes of an ASCII string literal. -/
def ascii (s : String) : List Byte := s.toList.map fun c => byte c.toNat

/-- Position of `c` in `alphabet`, when it occurs there. -/
def decodeMap (alphabet : List Byte) (c : Byte) : Option Nat :=
  let i := alphabet.indexOf c
  if i < alphabet.length then some i else none

/-- The padding character `=`. -/
def padChar : Byte := 61

/-- Drops `\r` and `\n`, which the base64 and base32 decoders ignore. -/
def stripNewlines (s : List Byte) : List Byte :=
  s.filter fun c => c ≠ (13 : Byte) && c ≠ (10 : Byte)

namespace hex

/-- The table `hextable`. -/
def hextable : List Byte := ascii "0123456789abcdef"

/-- Function `hex.EncodeToString`: two lowercase digits per byte. -/
def EncodeToString : List Byte → List Byte
  | [] => []
  | v :: rest => hextable.getD (v.val / 16) 0 :: hextable.getD (v.val % 16) 0 :: EncodeToString rest

/-- Value of one hexadecimal digit, either case. -/
def fromHexChar (c : Byte) : Option Nat :=
  if 48 ≤ c.val ∧ c.val ≤ 57 then some (c.val - 48)
  else if 97 ≤ c.val ∧ c.val ≤ 102 then some (c.val - 97 + 10)
  else if 65 ≤ c.val ∧ c.val ≤ 70 then some (c.val - 65 + 10)
  else none

/-- Function `hex.DecodeString`. -/
def DecodeString : List Byte → Except Error (List Byte)
  | [] => .ok []
  | [_] => .error (Error.external "encoding/hex: odd length hex string")
  | p :: q :: rest =>
    match fromHexChar p, fromHexChar q with
    | some a, some b =>
      match DecodeString rest with
      | .ok out => .ok (byte (a * 16 + b) :: out)
      | .error err => .error err
    | _, _ => .error (Error.external "encoding/hex: invalid byte")

end hex

namespace base64

/-- The standard alphabet of RFC 4648 section 4. -/
def encodeStd : List Byte :=
  ascii "ABCDEFGHIJKLMNOPQRSTUVWXYZabcdefghijklmnopqrstuvwxyz0123456789+/"

/-- Character of a 6-bit value. -/
def char (n : Nat) : Byte := encodeStd.getD n 0

/-- Function `base64.StdEncoding.EncodeToString`. -/
def EncodeToString : List Byte → List Byte
  | [] => []
  | [a] => [char (a.val / 4), char (a.val % 4 * 16), padChar, padChar]
  | [a, b] =>
    [char (a.val / 4), char (a.val % 4 * 16 + b.val / 16), char (b.val % 16 * 4), padChar]
  | a :: b :: c :: rest =>
    char (a.val / 4) :: char (a.val % 4 * 16 + b.val / 16) ::
      char (b.val % 16 * 4 + c.val / 64) :: char (c.val % 64) :: EncodeToString rest

/-- Decoding of the quanta of a string without line breaks. -/
def decodeQuanta : List Byte → Except Error (List Byte)
  | [] => .ok []
  | a :: b :: c :: d :: rest =>
    match decodeMap encodeStd a, decodeMap encodeStd b with
    | some x, some y =>
      if c = padChar then
        if d = padChar ∧ rest = [] then .ok [byte (x * 4 + y / 16)]
        else .error (Error.external "illegal base64 data")
      else
        match decodeMap encodeStd c with
        | none => .error (Error.external "illegal base64 data")
        | some z =>
          if d = padChar then
            if rest = [] then .ok [byte (x * 4 + y / 16), byte (y % 16 * 16 + z / 4)]
            else .error (Error.external "illegal base64 data")
          else
            match decodeMap encodeStd d with
            | none => .error (Error.external "illegal base64 data")
            | some w =>
              match decodeQuanta rest with
              | .ok out =>
                .ok (byte (x * 4 + y / 16) :: byte (y % 16 * 16 + z / 4) ::
                  byte (z % 4 * 64 + w) :: out)
              | .error err => .error err
    | _, _ => .error (Error.external "illegal base64 data")
  | _ => .error (Error.external "illegal base64 data")

/-- Function `base64.StdEncoding.DecodeString`: carriage returns and line feeds
are dropped, then the quanta are decoded. -/
def DecodeString (s : List Byte) : Except Error (List Byte) :=
  decodeQuanta (stripNewlines s)

end base64

namespace base32

/-- The standard alphabet of RFC 4648 section 6. -/
def encodeStd : List Byte := ascii "ABCDEFGHIJKLMNOPQRSTUVWXYZ234567"

/-- Character of a 5-bit value. -/
def char (n : Nat) : Byte := encodeStd.getD n 0

/-- The eight 5-bit values of a 40-bit group. -/
def quantum (a b c d e : Nat) : List Nat :=
  [a / 8, a % 8 * 4 + b / 64, b / 2 % 32, b % 2 * 16 + c / 16,
   c % 16 * 2 + d / 128, d / 4 % 32, d % 4 * 8 + e / 32, e % 32]

/-- The first `n` characters of a group followed by `8 - n` pads. -/
def padded (n : Nat) (q : List Nat) : List Byte :=
  (q.take n).map char ++ List.replicate (8 - n) padChar

/-- Function `base32.StdEncoding.EncodeToString`. -/
def EncodeToString : List Byte → List Byte
  | [] => []
  | [a] => padded 2 (quantum a.val 0 0 0 0)
  | [a, b] => padded 4 (quantum a.val b.val 0 0 0)
  | [a, b, c] => padded 5 (quantum a.val b.val c.val 0 0)
  | [a, b, c, d] => padded 7 (quantum a.val b.val c.val d.val 0)
  | a :: b :: c :: d :: e :: rest =>
    (quantum a.val b.val c.val d.val e.val).map char ++ EncodeToString rest

/-- The five bytes packed in eight 5-bit values. -/
def pack (v : List Nat) : List Byte :=
  [byte (v.getD 0 0 * 8 + v.getD 1 0 / 4),
   byte (v.getD 1 0 % 4 * 64 + v.getD 2 0 * 2 + v.getD 3 0 / 16),
   byte (v.getD 3 0 % 16 * 16 + v.getD 4 0 / 2),
   byte (v.getD 4 0 % 2 * 128 + v.getD 5 0 * 4 + v.getD 6 0 / 8),
   byte (v.getD 6 0 % 8 * 32 + v.getD 7 0)]

/-- The values of the characters of `s` when all are in the alphabet. -/
def values : List Byte → Option (List Nat)
  | [] => some []
  | c :: rest =>
    match decodeMap encodeStd c, values rest with
    | some v, some vs => some (v :: vs)
    | _, _ => none

/-- The last group: `n` characters and `8 - n` pads give `m` bytes. -/
def decodeLast (g : List Byte) : Except Error (List Byte) :=
  let n := (g.takeWhile fun c => c ≠ padChar).length
  if g.drop n = List.replicate (8 - n) padChar then
    match values (g.take n) with
    | none => .error (Error.external "illegal base32 data")
    | some v =>
      if n = 2 then .ok ((pack v).take 1)
      else if n = 4 then .ok ((pack v).take 2)
      else if n = 5 then .ok ((pack v).take 3)
      else if n = 7 then .ok ((pack v).take 4)
      else .error (Error.external "illegal base32 data")
  else .error (Error.external "illegal base32 data")

/-- Decoding of the groups of a string without line breaks. -/
def decodeQuanta : List Byte → Except Error (List Byte)
  | [] => .ok []
  | c0 :: c1 :: c2 :: c3 :: c4 :: c5 :: c6 :: c7 :: rest =>
    match values [c0, c1, c2, c3, c4, c5, c6, c7] with
    | some v =>
      match decodeQuanta rest with
      | .ok out => .ok (pack v ++ out)
      | .error err => .error err
    | none =>
      if rest = [] then decodeLast [c0, c1, c2, c3, c4, c5, c6, c7]
      else .error (Error.external "illegal base32 data")
  | _ => .error (Error.external "illegal base32 data")

/-- Function `base32.StdEncoding.DecodeString`: carriage returns and line feeds
are dropped, then the groups are decoded. This version lets nothing follow the
padding of the last group. -/
def DecodeString (s : List Byte) : Except Error (List Byte) :=
  decodeQuanta (stripNewlines s)

end base32

/-- The RFC 4648 encodings. -/
def rfc4648 : Encodings where
  base64 := { EncodeToString := base64.EncodeToString, DecodeString := base64.DecodeString }
  base32 := { EncodeToString := base32.EncodeToString, DecodeString := base32.DecodeString }
  hex := { EncodeToString := hex.EncodeToString, DecodeString := hex.DecodeString }


namespace sm2p256v1

/-- The field prime. -/
def P : Nat := 0xFFFFFFFEFFFFFFFFFFFFFFFFFFFFFFFFFFFFFFFF00000000FFFFFFFFFFFFFFFF
/-- Coefficient `a` of `y² = x³ + ax + b`. -/
def A : Nat := 0xFFFFFFFEFFFFFFFFFFFFFFFFFFFFFFFFFFFFFFFF00000000FFFFFFFFFFFFFFFC
/-- Coefficient `b`. -/
def B : Nat := 0x28E9FA9E9D9F5E344D5A9E4BCF6509A7F39789F515AB8F92DDBCBD414D940E93
/-- The order of the base point. -/
def N : Nat := 0xFFFFFFFEFFFFFFFFFFFFFFFFFFFFFFFF7203DF6B21C6052B53BBF40939D54123
/-- The base point. -/
def Gx : Nat := 0x32C4AE2C1F1981195F9904466A39C9948FE30BBFF2660BE1715A4589334C74C7
/-- The base point, second coordinate. -/
def Gy : Nat := 0xBC3736A2F4F6779C59BDCEE36B692153D0A9877CC62A474002DF32E52139F0A0

/-- The curve test `IsOnCurve`: both coordinates are reduced field elements and satisfy the
curve equation. -/
def IsOnCurve (x y : Int) : Bool :=
  decide (0 ≤ x ∧ x < P ∧ 0 ≤ y ∧ y < P ∧
    (y.toNat * y.toNat) % P = (x.toNat * x.toNat * x.toNat + A * x.toNat + B) % P)

/-- Square-and-multiply: `b ^ e mod P`, for `e < 2 ^ fuel`. -/
def powMod : Nat → Nat → Nat → Nat
  | 0, _, _ => 1
  | fuel + 1, b, e =>
    if e = 0 then 1
    else if e % 2 = 1 then b * powMod fuel (b * b % P) (e / 2) % P
    else powMod fuel (b * b % P) (e / 2)

/-- Inverse in the field. -/
def inv (v : Nat) : Nat := powMod 256 (v % P) (P - 2)

/-- Addition of affine points; `none` is the point at infinity. -/
def add : Option (Nat × Nat) → Option (Nat × Nat) → Option (Nat × Nat)
  | none, q => q
  | some p, none => some p
  | some (x1, y1), some (x2, y2) =>
    if x1 = x2 then
      if (y1 + y2) % P = 0 then none
      else
        let l := (3 * x1 * x1 + A) * inv (2 * y1) % P
        let x3 := (l * l + (P - x1) + (P - x1)) % P
        some (x3, (l * (x1 + (P - x3)) + (P - y1)) % P)
    else
      let l := (y2 + (P - y1)) * inv (x2 + (P - x1)) % P
      let x3 := (l * l + (P - x1) + (P - x2)) % P
      some (x3, (l * (x1 + (P - x3)) + (P - y1)) % P)

/-- Double-and-add: `k · pt`, for `k < 2 ^ fuel`. -/
def mul : Nat → Nat → Option (Nat × Nat) → Option (Nat × Nat)
  | 0, _, _ => none
  | fuel + 1, k, pt =>
    if k = 0 then none
    else if k % 2 = 1 then add pt (mul fuel (k / 2) (add pt pt))
    else mul fuel (k / 2) (add pt pt)

/-- The uncompressed point encoding read back: tag, length and curve
membership are checked. -/
def NewPublicKey (b : List Byte) : Except Error PublicKey :=
  if b.length = 65 ∧ b[0]? = some (0x04 : Byte) ∧
      IsOnCurve (SetBytes (slice b 1 33)) (SetBytes (slice b 33 65)) = true then
    .ok { X := SetBytes (slice b 1 33), Y := SetBytes (slice b 33 65) }
  else .error (Error.external "sm2: invalid public key")

/-- The key of the scalar `|d|`, for `1 ≤ |d| ≤ N - 2`; any other scalar is
refused. The library writes the scalar with `FillBytes`, which takes the
absolute value, and reads it back; it refuses 0 and every value above `N - 2`.
One case is not reproduced: for `|d| ≥ 2^256` the library panics in
`FillBytes`, where this function returns the error. -/
def NewPrivateKeyFromInt : Option Int → Except Error PrivateKey
  | none => .error (Error.external "sm2: invalid private key size")
  | some d =>
    if 1 ≤ d.natAbs ∧ d.natAbs ≤ N - 2 then
      match mul 256 d.natAbs (some (Gx, Gy)) with
      | some (x, y) => .ok { D := Int.ofNat d.natAbs, X := Int.ofNat x, Y := Int.ofNat y }
      | none => .error (Error.external "sm2: invalid private key")
    else .error (Error.external "sm2: invalid private key")

end sm2p256v1

/-- Decidable equality of results. -/
instance instDecidableEqExcept {ε α : Type} [DecidableEq ε] [DecidableEq α] :
    DecidableEq (Except ε α) := fun a b =>
  match a, b with
  | .ok x, .ok y =>
    if h : x = y then isTrue (by rw [h]) else isFalse (by intro e; cases e; exact h rfl)
  | .error x, .error y =>
    if h : x = y then isTrue (by rw [h]) else isFalse (by intro e; cases e; exact h rfl)
  | .ok _, .error _ => isFalse (by intro e; cases e)
  | .error _, .ok _ => isFalse (by intro e; cases e)

/-- The primitives over sm2p256v1. Key derivation (for scalars below `2^256`),
the curve test and the point decoding follow the library; the signature is a
stand-in with the
interface of the real one (it signs with the public point and the digest read
as an integer, and needs at least one byte of entropy), and so is the
digest. -/
def sm2p256v1.crypto : Crypto where
  IsOnCurve := sm2p256v1.IsOnCurve
  NewPrivateKeyFromInt := sm2p256v1.NewPrivateKeyFromInt
  NewPublicKey := sm2p256v1.NewPublicKey
  SignWithSM2 := fun rnd k _ h =>
    if rnd = [] then .error (Error.external "EOF")
    else .ok (Int.ofNat (k.X.natAbs % sm2p256v1.N), SetBytes h)
  VerifyWithSM2 := fun pub _ h r s =>
    decide (r = some (Int.ofNat (pub.X.natAbs % sm2p256v1.N)) ∧ s = some (SetBytes h))
  sm3 := fun data =>
    bigEndian 32 (data.foldl (fun acc b => (acc * 257 + b.val + 1) % 2 ^ 256) 0)

/-- Modelled from the spec: the record codec (`toBytes` and `fromBytes` are not
among the source files), in the layout of section 4.1: a byte sequence carries
a length prefix (one byte here), an integer is 32 big-endian bytes. Records
this layout cannot hold are refused. -/
def lengthPrefixed : Codec where
  toBytes := fun c =>
    match c.D with
    | none => ([], some (Error.external "codec: nil integer"))
    | some d =>
      if c.Pub.length < 256 ∧ 0 ≤ d ∧ d < 2 ^ 256 then
        (byte c.Pub.length :: (c.Pub ++ bigEndian 32 d.toNat), none)
      else ([], some (Error.external "codec: value out of range"))
  fromBytes := fun c b =>
    match b with
    | [] => (c, some (Error.external "codec: unexpected end of input"))
    | n :: rest =>
      if rest.length = n.val + 32 then
        ({ Pub := rest.take n.val, D := some (SetBytes (rest.drop n.val)) }, none)
      else (c, some (Error.external "codec: wrong length"))

/-- Modelled from the spec: `fromBytes` at a `*License` (not among the source
files), in the layout of section 4.1: the payload with a one-byte length
prefix, then `R` and `S` in 32 big-endian bytes each. The fields are filled in
this order, so a record that ends early keeps the fields read so far. -/
def lengthPrefixedLicense.fromBytes (l : License) (b : List Byte) : License × Option Error :=
  match b with
  | [] => (l, some (Error.external "codec: unexpected end of input"))
  | n :: rest =>
    if rest.length < n.val then (l, some (Error.external "codec: unexpected end of input"))
    else
      let l1 : License := { l with Data := rest.take n.val }
      let tail := rest.drop n.val
      if tail.length = 64 then
        ({ l1 with R := some (SetBytes (tail.take 32)), S := some (SetBytes (tail.drop 32)) },
          none)
      else (l1, some (Error.external "codec: wrong length"))

/-- Modelled from the spec: the text helpers decode the text, then call
`fromBytes` (section 4.1); a text error leaves the record as it was. -/
def lengthPrefixedLicense.fromString (e : TextEncoding) (l : License) (s : List Byte) :
    License × Option Error :=
  match e.DecodeString s with
  | .error err => (l, some err)
  | .ok b => lengthPrefixedLicense.fromBytes l b

/-- Modelled from the spec: the license decoders over the RFC 4648
encodings. -/
def lengthPrefixedLicense : LicenseCodec where
  fromBytes := lengthPrefixedLicense.fromBytes
  fromB64String := lengthPrefixedLicense.fromString rfc4648.base64
  fromB32String := lengthPrefixedLicense.fromString rfc4648.base32
  fromHexString := lengthPrefixedLicense.fromString rfc4648.hex

/-! ## Well-formed text, in the words of the specification

The specification speaks of text with an invalid character set, invalid
padding or invalid length. The three predicates say what that means for the
text a decoder is given; for base64 and base32 they are applied to the text
without carriage returns and line feeds, which those decoders skip. -/

/-- Hexadecimal text: an even number of characters, each one of `0`-`9`,
`a`-`f` or `A`-`F`. -/
def hex.IsText (s : List Byte) : Prop :=
  s.length % 2 = 0 ∧
    ∀ c ∈ s, (48 ≤ c.val ∧ c.val ≤ 57) ∨ (97 ≤ c.val ∧ c.val ≤ 102) ∨
      (65 ≤ c.val ∧ c.val ≤ 70)

instance hex.decidableIsText (s : List Byte) : Decidable (hex.IsText s) := by
  unfold hex.IsText; infer_instance

/-- Standard padded base64 text: a multiple of four characters, all of the
alphabet except for one or two pads at the very end. -/
def base64.IsText (t : List Byte) : Prop :=
  t.length % 4 = 0 ∧
    ∃ body pads, t = body ++ pads ∧ (∀ c ∈ body, c ∈ base64.encodeStd) ∧
      (pads = [] ∨ pads = [padChar] ∨ pads = [padChar, padChar])

/-- The part of well-formedness of padded base32 text that is used here: every
character before the first pad is of the alphabet, and a text without pad has
a multiple of eight characters. -/
def base32.IsText (t : List Byte) : Prop :=
  (∀ c ∈ t.takeWhile (fun c => c ≠ padChar), c ∈ base32.encodeStd) ∧
    (padChar ∉ t → t.length % 8 = 0)

instance base32.decidableIsText (t : List Byte) : Decidable (base32.IsText t) := by
  unfold base32.IsText; infer_instance

/-! ## Contracts of the libraries -/

/-- Decoding inverts encoding. -/
def TextEncoding.Lossless (e : TextEncoding) : Prop :=
  ∀ b, e.DecodeString (e.EncodeToString b) = .ok b

/-- All three encodings are lossless. -/
def Encodings.Lossless (enc : Encodings) : Prop :=
  enc.base64.Lossless ∧ enc.base32.Lossless ∧ enc.hex.Lossless

/-- The codec writes the record `c` and reads it back unchanged. -/
def Codec.RoundTrips (codec : Codec) (c : pkContainer) : Prop :=
  ∃ b, codec.toBytes c = (b, none) ∧ codec.fromBytes { Pub := [], D := none } b = (c, none)

/-- The key `k` is the one the library derives from its scalar:
`(X, Y) = D · G`. -/
def Crypto.IsKey (lib : Crypto) (k : PrivateKey) : Prop :=
  lib.NewPrivateKeyFromInt (some k.D) = .ok k

instance Crypto.decidableIsKey (lib : Crypto) (k : PrivateKey) : Decidable (lib.IsKey k) := by
  unfold Crypto.IsKey; infer_instance

/-- The key of scalar 2 on sm2p256v1: the point is `2 · G`. -/
def sm2p256v1.key2 : PrivateKey where
  D := 2
  X := 0x56cefd60d7c87c000d58ef57fa73ba4d9c0dfa08c08a7331495c2e1da3f2bd52
  Y := 0x31b7e7e6cc8189f668535ce0f8eaf1bd6de84c182f6c8e716f780d3a970a23c3

/-- The scalar `N - 1` with its point `(N - 1) · G = -G = (Gx, P - Gy)`. -/
def sm2p256v1.keyLast : PrivateKey where
  D := Int.ofNat (sm2p256v1.N - 1)
  X := Int.ofNat sm2p256v1.Gx
  Y := Int.ofNat (sm2p256v1.P - sm2p256v1.Gy)

/-- The 65 bytes `0x04 ‖ X ‖ Y` of the point of `key2`. -/
def sm2p256v1.key2Pub : List Byte :=
  (0x04 : Byte) :: (bigEndian 32 sm2p256v1.key2.X.toNat ++ bigEndian 32 sm2p256v1.key2.Y.toNat)

/-- Both coordinates are non-negative and below `2 ^ 256`. -/
def PublicKey.InField (p : PublicKey) : Prop :=
  0 ≤ p.X ∧ p.X < 2 ^ 256 ∧ 0 ≤ p.Y ∧ p.Y < 2 ^ 256

instance PublicKey.decidableInField (p : PublicKey) : Decidable p.InField := by
  unfold PublicKey.InField; infer_instance

/-- A point the curve test accepts has coordinates in the field. -/
def Crypto.OnCurveInField (lib : Crypto) : Prop :=
  ∀ x y, lib.IsOnCurve x y = true → PublicKey.InField { X := x, Y := y }

/-- The call `NewPublicKey` accepts the uncompressed encoding of an on-curve point. -/
def Crypto.AcceptsOnCurve (lib : Crypto) : Prop :=
  ∀ p : PublicKey, lib.IsOnCurve p.X p.Y = true → ∀ kb, p.ToBytes = some kb →
    ∃ pub, lib.NewPublicKey kb = .ok pub

/-- The primitive verifies its own signatures: what `SignWithSM2` produces
under a key is accepted by `VerifyWithSM2` under the decoded public point of
that key, for the same identifier and digest. -/
def Crypto.VerifiesOwnSignatures (lib : Crypto) : Prop :=
  ∀ rnd k uid h r s kb pub, lib.IsKey k → lib.SignWithSM2 rnd k uid h = .ok (r, s) →
    k.GetPublicKey.ToBytes = some kb → lib.NewPublicKey kb = .ok pub →
    lib.VerifyWithSM2 pub uid h (some r) (some s) = true

/-! ## Lemmas on the big-endian form -/

theorem length_bigEndian (n v : Nat) : (bigEndian n v).length = n := by
  induction n generalizing v with
  | zero => rfl
  | succ n ih => simp [bigEndian, ih]

/-- Digit `i` of the `n`-digit big-endian form of `v`. -/
theorem getElem?_bigEndian (n v i : Nat) (h : i < n) :
    ((bigEndian n v)[i]?).map Fin.val = some (v / 256 ^ (n - 1 - i) % 256) := by
  induction n generalizing v i with
  | zero => omega
  | succ n ih =>
    unfold bigEndian
    by_cases hi : i < n
    · rw [List.getElem?_append_left (by simpa [length_bigEndian] using hi), ih _ _ hi]
      have e : n + 1 - 1 - i = (n - 1 - i) + 1 := by omega
      rw [e, pow_succ, Nat.div_div_eq_div_mul, Nat.mul_comm]
    · have hin : i = n := by omega
      subst hin
      rw [List.getElem?_append_right (by simp [length_bigEndian])]
      simp [length_bigEndian]

theorem foldl_digits_append (xs : List Byte) (b : Byte) (a : Nat) :
    (xs ++ [b]).foldl (fun acc (d : Byte) => acc * 256 + d.val) a
      = xs.foldl (fun acc (d : Byte) => acc * 256 + d.val) a * 256 + b.val := by
  simp [List.foldl_append]

/-- Reading back the `n`-digit form gives the value modulo `256 ^ n`. -/
theorem foldl_bigEndian (n v : Nat) :
    (bigEndian n v).foldl (fun acc (d : Byte) => acc * 256 + d.val) 0 = v % 256 ^ n := by
  induction n generalizing v with
  | zero => simp [bigEndian, Nat.mod_one]
  | succ n ih =>
    unfold bigEndian
    rw [foldl_digits_append, ih]
    simp only []
    rw [pow_succ, Nat.mul_comm (256 ^ n) 256, Nat.mod_mul, Nat.add_comm, Nat.mul_comm]

theorem SetBytes_bigEndian (n v : Nat) (h : v < 256 ^ n) :
    SetBytes (bigEndian n v) = Int.ofNat v := by
  unfold SetBytes
  rw [foldl_bigEndian, Nat.mod_eq_of_lt h]

theorem FillBytes_of_fits (x : Int) (n : Nat) (h0 : 0 ≤ x) (h : x < 256 ^ n) :
    FillBytes x n = some (bigEndian n x.toNat) := by
  have hx : x.natAbs = x.toNat := by omega
  have hlt : x.toNat < 256 ^ n := by
    have : ((x.toNat : Nat) : Int) < ((256 ^ n : Nat) : Int) := by
      rw [Int.toNat_of_nonneg h0]; exact_mod_cast h
    exact_mod_cast this
  simp [FillBytes, hx, hlt]

/-! ## Public keys: layout and round trip -/

theorem slice_x (t : Byte) (xs ys : List Byte) (hx : xs.length = 32) :
    slice (t :: (xs ++ ys)) 1 33 = xs := by
  simp [slice, List.take_append_of_le_length, hx]

theorem slice_y (t : Byte) (xs ys : List Byte) (hx : xs.length = 32) (hy : ys.length = 32) :
    slice (t :: (xs ++ ys)) 33 65 = ys := by
  have h1 : List.drop 32 (xs ++ ys) = ys := by
    have h := List.drop_left xs ys
    rwa [hx] at h
  have h2 : List.take 32 ys = ys := by
    have h := List.take_length ys
    rwa [hy] at h
  simp only [slice, List.drop_succ_cons, h1]
  exact h2

/-- The bytes `ToBytes` produces for a key with coordinates in the field. -/
theorem PublicKey.ToBytes_of_inField (k : PublicKey) (h : k.InField) :
    k.ToBytes = some ((0x04 : Byte) :: (bigEndian 32 k.X.toNat ++ bigEndian 32 k.Y.toNat)) := by
  obtain ⟨hx0, hx, hy0, hy⟩ := h
  have e : (256 : Int) ^ 32 = 2 ^ 256 := by norm_num
  unfold PublicKey.ToBytes
  rw [FillBytes_of_fits k.X 32 hx0 (by rw [e]; exact hx),
    FillBytes_of_fits k.Y 32 hy0 (by rw [e]; exact hy)]

/-- C1: for a public key whose coordinates are non-negative and below `2^256`,
`ToBytes` returns 65 bytes; byte 0 is `0x04`, byte `1 + i` is base-256 digit
`31 - i` of `X` and byte `33 + i` is base-256 digit `31 - i` of `Y`
(`i < 32`), which is the 32-byte zero-padded big-endian form. -/
theorem PublicKey.ToBytes_layout (k : PublicKey) (h : k.InField) :
    ∃ bs, k.ToBytes = some bs ∧ bs.length = 65 ∧ bs[0]? = some (0x04 : Byte) ∧
      (∀ i, i < 32 → (bs[1 + i]?).map Fin.val = some (k.X.toNat / 256 ^ (31 - i) % 256)) ∧
      (∀ i, i < 32 → (bs[33 + i]?).map Fin.val = some (k.Y.toNat / 256 ^ (31 - i) % 256)) := by
  refine ⟨_, k.ToBytes_of_inField h, ?_, ?_, ?_, ?_⟩
  · simp [length_bigEndian]
  · simp
  · intro i hi
    have e : 1 + i = i + 1 := by omega
    rw [e, List.getElem?_cons_succ,
      List.getElem?_append_left (by simpa [length_bigEndian] using hi)]
    exact getElem?_bigEndian 32 _ i hi
  · intro i hi
    have e : 33 + i = (32 + i) + 1 := by omega
    rw [e, List.getElem?_cons_succ,
      List.getElem?_append_right (by simp [length_bigEndian])]
    simp only [length_bigEndian, Nat.add_sub_cancel_left]
    exact getElem?_bigEndian 32 _ i hi

set_option maxRecDepth 100000 in
/-- Witness for C1: the base point of sm2p256v1. -/
theorem PublicKey.ToBytes_layout_witness :
    (PublicKey.mk sm2p256v1.Gx sm2p256v1.Gy).InField ∧
    ∃ bs, (PublicKey.mk sm2p256v1.Gx sm2p256v1.Gy).ToBytes = some bs ∧ bs.length = 65 ∧
      bs[0]? = some (0x04 : Byte) ∧
      (∀ i, i < 32 →
        (bs[1 + i]?).map Fin.val = some ((sm2p256v1.Gx : Int).toNat / 256 ^ (31 - i) % 256)) ∧
      (∀ i, i < 32 →
        (bs[33 + i]?).map Fin.val = some ((sm2p256v1.Gy : Int).toNat / 256 ^ (31 - i) % 256)) :=
  ⟨by decide, PublicKey.ToBytes_layout ⟨sm2p256v1.Gx, sm2p256v1.Gy⟩ (by decide)⟩

/-- C2: `PublicKeyFromBytes` fails exactly when the length is not 65, or the
first byte is not `0x04`, or the point read from `b[1:33]` and `b[33:65]` is
refused by the curve test; and when it fails it returns a nil key with
`ErrInvalidPublicKey`. -/
theorem PublicKeyFromBytes_fails_iff (lib : Crypto) (b : List Byte) :
    ((PublicKeyFromBytes lib b).2 ≠ none ↔
      (b.length ≠ 65 ∨ b[0]? ≠ some (0x04 : Byte) ∨
        lib.IsOnCurve (SetBytes (slice b 1 33)) (SetBytes (slice b 33 65)) = false)) ∧
    ((PublicKeyFromBytes lib b).2 ≠ none →
      PublicKeyFromBytes lib b = (none, some Error.ErrInvalidPublicKey)) := by
  unfold PublicKeyFromBytes
  by_cases h1 : b.length ≠ 65
  · simp [h1]
  · by_cases h2 : b[0]? ≠ some (0x04 : Byte)
    · simp [h2]
    · by_cases h3 : lib.IsOnCurve (SetBytes (slice b 1 33)) (SetBytes (slice b 33 65)) = true
      · simp [h1, h2, h3]
      · simp [h1, h2, h3]

/-- Decoding the 65 bytes of an on-curve point with coordinates in the field
gives the point back. -/
theorem PublicKeyFromBytes_bigEndian (lib : Crypto) (p : PublicKey)
    (hcurve : lib.IsOnCurve p.X p.Y = true) (hfield : p.InField) :
    PublicKeyFromBytes lib
        ((0x04 : Byte) :: (bigEndian 32 p.X.toNat ++ bigEndian 32 p.Y.toNat))
      = (some p, none) := by
  obtain ⟨hx0, hx, hy0, hy⟩ := hfield
  have e : (256 : Nat) ^ 32 = 2 ^ 256 := by norm_num
  have hxn : p.X.toNat < 256 ^ 32 := by rw [e]; omega
  have hyn : p.Y.toNat < 256 ^ 32 := by rw [e]; omega
  have ex : SetBytes (bigEndian 32 p.X.toNat) = p.X := by
    rw [SetBytes_bigEndian _ _ hxn]; exact Int.toNat_of_nonneg hx0
  have ey : SetBytes (bigEndian 32 p.Y.toNat) = p.Y := by
    rw [SetBytes_bigEndian _ _ hyn]; exact Int.toNat_of_nonneg hy0
  unfold PublicKeyFromBytes
  rw [slice_x _ _ _ (length_bigEndian _ _),
    slice_y _ _ _ (length_bigEndian _ _) (length_bigEndian _ _), ex, ey]
  simp [length_bigEndian, hcurve]

/-- C3: for a public key on the curve with coordinates in the field,
`PublicKeyFromBytes(p.ToBytes())` succeeds and returns a key with the same `X`
and `Y`. -/
theorem PublicKeyFromBytes_ToBytes (lib : Crypto) (p : PublicKey)
    (hcurve : lib.IsOnCurve p.X p.Y = true) (hfield : p.InField) :
    ∃ b, p.ToBytes = some b ∧ PublicKeyFromBytes lib b = (some p, none) := by
  refine ⟨(0x04 : Byte) :: (bigEndian 32 p.X.toNat ++ bigEndian 32 p.Y.toNat), ?_, ?_⟩
  · exact p.ToBytes_of_inField hfield
  · exact PublicKeyFromBytes_bigEndian lib p hcurve hfield

set_option maxRecDepth 100000 in
/-- Witness for C3: the base point of sm2p256v1 under the curve test of
sm2p256v1. -/
theorem PublicKeyFromBytes_ToBytes_witness :
    (sm2p256v1.crypto.IsOnCurve (PublicKey.mk sm2p256v1.Gx sm2p256v1.Gy).X
        (PublicKey.mk sm2p256v1.Gx sm2p256v1.Gy).Y = true ∧
      (PublicKey.mk sm2p256v1.Gx sm2p256v1.Gy).InField) ∧
    ∃ b, (PublicKey.mk sm2p256v1.Gx sm2p256v1.Gy).ToBytes = some b ∧
      PublicKeyFromBytes sm2p256v1.crypto b
        = (some (PublicKey.mk sm2p256v1.Gx sm2p256v1.Gy), none) :=
  ⟨⟨by decide, by decide⟩,
    PublicKeyFromBytes_ToBytes sm2p256v1.crypto ⟨sm2p256v1.Gx, sm2p256v1.Gy⟩
      (by decide) (by decide)⟩

/-! ## The RFC 4648 encodings are lossless -/

theorem byte_val (v : Byte) : byte v.val = v := by
  apply Fin.ext
  simp [byte, Nat.mod_eq_of_lt v.isLt]

theorem byte_eq (n : Nat) (v : Byte) (h : n = v.val) : byte n = v := by
  subst h; exact byte_val v

set_option maxRecDepth 100000 in
theorem hex.hex_fromHexChar_hextable :
    ∀ n : Fin 16, hex.fromHexChar (hex.hextable.getD n.val 0) = some n.val := by
  decide

theorem hex.hex_decode_encode (b : List Byte) :
    hex.DecodeString (hex.EncodeToString b) = .ok b := by
  induction b with
  | nil => rfl
  | cons v rest ih =>
    have h1 := hex.hex_fromHexChar_hextable ⟨v.val / 16, by omega⟩
    have h2 := hex.hex_fromHexChar_hextable ⟨v.val % 16, by omega⟩
    simp only [] at h1 h2
    simp only [hex.EncodeToString, hex.DecodeString, h1, h2, ih]
    rw [byte_eq _ v (by omega)]

set_option maxRecDepth 100000 in
theorem base64.b64_decodeMap_char :
    ∀ n : Fin 64, decodeMap base64.encodeStd (base64.char n.val) = some n.val := by
  decide

set_option maxRecDepth 100000 in
theorem base64.b64_char_plain : ∀ n : Fin 64, base64.char n.val ≠ padChar ∧
    base64.char n.val ≠ (13 : Byte) ∧ base64.char n.val ≠ (10 : Byte) := by
  decide

theorem base64.b64_decodeMap_char_lt (n : Nat) (h : n < 64) :
    decodeMap base64.encodeStd (base64.char n) = some n :=
  base64.b64_decodeMap_char ⟨n, h⟩

theorem base64.b64_char_ne_pad (n : Nat) (h : n < 64) : base64.char n ≠ padChar :=
  (base64.b64_char_plain ⟨n, h⟩).1

theorem base64.b64_char_keep (n : Nat) (h : n < 64) :
    (base64.char n ≠ (13 : Byte) && base64.char n ≠ (10 : Byte)) = true := by
  have h2 := (base64.b64_char_plain ⟨n, h⟩).2
  simp only [] at h2
  simp [h2.1, h2.2]

theorem pad_keep : (padChar ≠ (13 : Byte) && padChar ≠ (10 : Byte)) = true := by decide

theorem base64.b64_strip_encode (b : List Byte) :
    stripNewlines (base64.EncodeToString b) = base64.EncodeToString b := by
  unfold stripNewlines
  induction b using base64.EncodeToString.induct with
  | case1 => rfl
  | case2 a =>
    simp only [base64.EncodeToString, List.filter_cons, List.filter_nil, pad_keep,
      base64.b64_char_keep (a.val / 4) (by omega), base64.b64_char_keep (a.val % 4 * 16) (by omega),
      if_true]
  | case3 a b =>
    simp only [base64.EncodeToString, List.filter_cons, List.filter_nil, pad_keep,
      base64.b64_char_keep (a.val / 4) (by omega),
      base64.b64_char_keep (a.val % 4 * 16 + b.val / 16) (by omega),
      base64.b64_char_keep (b.val % 16 * 4) (by omega), if_true]
  | case4 a b c rest ih =>
    simp only [base64.EncodeToString, List.filter_cons, ih,
      base64.b64_char_keep (a.val / 4) (by omega),
      base64.b64_char_keep (a.val % 4 * 16 + b.val / 16) (by omega),
      base64.b64_char_keep (b.val % 16 * 4 + c.val / 64) (by omega),
      base64.b64_char_keep (c.val % 64) (by omega), if_true]

theorem base64.b64_decodeQuanta_encode (b : List Byte) :
    base64.decodeQuanta (base64.EncodeToString b) = .ok b := by
  induction b using base64.EncodeToString.induct with
  | case1 => rfl
  | case2 a =>
    simp only [base64.EncodeToString, base64.decodeQuanta,
      base64.b64_decodeMap_char_lt (a.val / 4) (by omega),
      base64.b64_decodeMap_char_lt (a.val % 4 * 16) (by omega), and_self, if_true]
    rw [byte_eq _ a (by omega)]
  | case3 a b =>
    simp only [base64.EncodeToString, base64.decodeQuanta,
      base64.b64_decodeMap_char_lt (a.val / 4) (by omega),
      base64.b64_decodeMap_char_lt (a.val % 4 * 16 + b.val / 16) (by omega),
      base64.b64_decodeMap_char_lt (b.val % 16 * 4) (by omega),
      base64.b64_char_ne_pad (b.val % 16 * 4) (by omega), if_true, if_false]
    rw [byte_eq _ a (by omega), byte_eq _ b (by omega)]
  | case4 a b c rest ih =>
    simp only [base64.EncodeToString, base64.decodeQuanta,
      base64.b64_decodeMap_char_lt (a.val / 4) (by omega),
      base64.b64_decodeMap_char_lt (a.val % 4 * 16 + b.val / 16) (by omega),
      base64.b64_decodeMap_char_lt (b.val % 16 * 4 + c.val / 64) (by omega),
      base64.b64_decodeMap_char_lt (c.val % 64) (by omega),
      base64.b64_char_ne_pad (b.val % 16 * 4 + c.val / 64) (by omega),
      base64.b64_char_ne_pad (c.val % 64) (by omega), if_false, ih]
    rw [byte_eq _ a (by omega), byte_eq _ b (by omega), byte_eq _ c (by omega)]

theorem base64.b64_decode_encode (b : List Byte) :
    base64.DecodeString (base64.EncodeToString b) = .ok b := by
  unfold base64.DecodeString
  rw [base64.b64_strip_encode, base64.b64_decodeQuanta_encode]

set_option maxRecDepth 100000 in
theorem base32.b32_decodeMap_char :
    ∀ n : Fin 32, decodeMap base32.encodeStd (base32.char n.val) = some n.val := by
  decide

set_option maxRecDepth 100000 in
theorem base32.b32_char_plain : ∀ n : Fin 32, base32.char n.val ≠ padChar ∧
    base32.char n.val ≠ (13 : Byte) ∧ base32.char n.val ≠ (10 : Byte) := by
  decide

theorem base32.b32_decodeMap_pad : decodeMap base32.encodeStd padChar = none := by decide

theorem base32.b32_decodeMap_char_lt (n : Nat) (h : n < 32) :
    decodeMap base32.encodeStd (base32.char n) = some n :=
  base32.b32_decodeMap_char ⟨n, h⟩

theorem base32.b32_char_ne_pad (n : Nat) (h : n < 32) : base32.char n ≠ padChar :=
  (base32.b32_char_plain ⟨n, h⟩).1

theorem base32.b32_char_keep (n : Nat) (h : n < 32) :
    (base32.char n ≠ (13 : Byte) && base32.char n ≠ (10 : Byte)) = true := by
  have h2 := (base32.b32_char_plain ⟨n, h⟩).2
  simp only [] at h2
  simp [h2.1, h2.2]

theorem base32.b32_quantum_lt (a b c d e : Nat) (ha : a < 256) (hb : b < 256) (hc : c < 256)
    (hd : d < 256) (he : e < 256) : ∀ v ∈ base32.quantum a b c d e, v < 32 := by
  intro v hv
  simp only [base32.quantum, List.mem_cons, List.mem_singleton, List.not_mem_nil, or_false] at hv
  omega

theorem base32.b32_strip_chars (vs : List Nat) (h : ∀ v ∈ vs, v < 32) (tail : List Byte) :
    stripNewlines (vs.map base32.char ++ tail) = vs.map base32.char ++ stripNewlines tail := by
  induction vs with
  | nil => rfl
  | cons v vs ih =>
    have hv := base32.b32_char_keep v (h v (List.mem_cons_self _ _))
    have ih2 := ih (fun w hw => h w (List.mem_cons_of_mem _ hw))
    unfold stripNewlines at ih2 ⊢
    simp only [List.map_cons, List.cons_append, List.filter_cons, hv, if_true, ih2]

theorem strip_pads (n : Nat) :
    stripNewlines (List.replicate n padChar) = List.replicate n padChar := by
  unfold stripNewlines
  induction n with
  | zero => rfl
  | succ n ih => simp only [List.replicate_succ, List.filter_cons, pad_keep, if_true, ih]

theorem base32.b32_values_chars (vs : List Nat) (h : ∀ v ∈ vs, v < 32) :
    base32.values (vs.map base32.char) = some vs := by
  induction vs with
  | nil => rfl
  | cons v vs ih =>
    simp only [List.map_cons, base32.values,
      base32.b32_decodeMap_char_lt v (h v (List.mem_cons_self _ _)),
      ih (fun w hw => h w (List.mem_cons_of_mem _ hw))]

theorem base32.b32_take_lt (n : Nat) (a b c d e : Nat) (ha : a < 256) (hb : b < 256)
    (hc : c < 256) (hd : d < 256) (he : e < 256) :
    ∀ v ∈ (base32.quantum a b c d e).take n, v < 32 :=
  fun v hv => base32.b32_quantum_lt a b c d e ha hb hc hd he v (List.mem_of_mem_take hv)

theorem base32.b32_strip_encode (b : List Byte) :
    stripNewlines (base32.EncodeToString b) = base32.EncodeToString b := by
  induction b using base32.EncodeToString.induct with
  | case1 => rfl
  | case2 a =>
    simp only [base32.EncodeToString, base32.padded]
    rw [base32.b32_strip_chars _
      (base32.b32_take_lt 2 _ _ _ _ _ a.isLt (by decide) (by decide) (by decide) (by decide)),
      strip_pads]
  | case3 a b =>
    simp only [base32.EncodeToString, base32.padded]
    rw [base32.b32_strip_chars _
      (base32.b32_take_lt 4 _ _ _ _ _ a.isLt b.isLt (by decide) (by decide) (by decide)),
      strip_pads]
  | case4 a b c =>
    simp only [base32.EncodeToString, base32.padded]
    rw [base32.b32_strip_chars _
      (base32.b32_take_lt 5 _ _ _ _ _ a.isLt b.isLt c.isLt (by decide) (by decide)),
      strip_pads]
  | case5 a b c d =>
    simp only [base32.EncodeToString, base32.padded]
    rw [base32.b32_strip_chars _
      (base32.b32_take_lt 7 _ _ _ _ _ a.isLt b.isLt c.isLt d.isLt (by decide)),
      strip_pads]
  | case6 a b c d e rest ih =>
    simp only [base32.EncodeToString]
    rw [base32.b32_strip_chars _
      (base32.b32_quantum_lt _ _ _ _ _ a.isLt b.isLt c.isLt d.isLt e.isLt), ih]

theorem base32.b32_pack_quantum (a b c d e : Byte) :
    base32.pack (base32.quantum a.val b.val c.val d.val e.val) = [a, b, c, d, e] := by
  simp only [base32.pack, base32.quantum, List.getD_cons_zero, List.getD_cons_succ]
  rw [byte_eq _ a (by omega), byte_eq _ b (by omega), byte_eq _ c (by omega),
    byte_eq _ d (by omega), byte_eq _ e (by omega)]

theorem base32.b32_decodeQuanta_group (a b c d e : Byte) (tail : List Byte) :
    base32.decodeQuanta ((base32.quantum a.val b.val c.val d.val e.val).map base32.char ++ tail)
      = match base32.decodeQuanta tail with
        | .ok out => .ok (a :: b :: c :: d :: e :: out)
        | .error err => .error err := by
  have hv := base32.b32_values_chars _
    (base32.b32_quantum_lt _ _ _ _ _ a.isLt b.isLt c.isLt d.isLt e.isLt)
  have hp := base32.b32_pack_quantum a b c d e
  simp only [base32.quantum, List.map_cons, List.map_nil, List.cons_append,
    List.nil_append] at hv hp ⊢
  rw [base32.decodeQuanta, hv]
  simp only [hp]
  cases base32.decodeQuanta tail <;> rfl

theorem takeWhile_pads (k : Nat) :
    (List.replicate k padChar).takeWhile (fun c => c ≠ padChar) = [] := by
  cases k with
  | zero => rfl
  | succ k => simp [List.replicate_succ, List.takeWhile_cons]

theorem base32.b32_takeWhile_chars (vs : List Nat) (h : ∀ v ∈ vs, v < 32) (k : Nat) :
    (vs.map base32.char ++ List.replicate k padChar).takeWhile (fun c => c ≠ padChar)
      = vs.map base32.char := by
  induction vs with
  | nil => exact takeWhile_pads k
  | cons v vs ih =>
    have hv := base32.b32_char_ne_pad v (h v (List.mem_cons_self _ _))
    have ih2 := ih (fun w hw => h w (List.mem_cons_of_mem _ hw))
    simp only [List.map_cons, List.cons_append, List.takeWhile_cons, ih2]
    simp [hv]

theorem base32.b32_values_pad (vs : List Nat) (tail : List Byte) :
    base32.values (vs.map base32.char ++ padChar :: tail) = none := by
  induction vs with
  | nil =>
    simp only [List.map_nil, List.nil_append, base32.values, base32.b32_decodeMap_pad]
  | cons v vs ih =>
    show base32.values (base32.char v :: (vs.map base32.char ++ padChar :: tail)) = none
    unfold base32.values
    rw [ih]
    cases decodeMap base32.encodeStd (base32.char v) <;> rfl

theorem base32.b32_decodeLast_padded (vs : List Nat) (h : ∀ v ∈ vs, v < 32) :
    base32.decodeLast (vs.map base32.char ++ List.replicate (8 - vs.length) padChar)
      = if vs.length = 2 then .ok ((base32.pack vs).take 1)
        else if vs.length = 4 then .ok ((base32.pack vs).take 2)
        else if vs.length = 5 then .ok ((base32.pack vs).take 3)
        else if vs.length = 7 then .ok ((base32.pack vs).take 4)
        else .error (Error.external "illegal base32 data") := by
  have hl : (vs.map base32.char).length = vs.length := List.length_map _ _
  have hd : List.drop vs.length (vs.map base32.char ++ List.replicate (8 - vs.length) padChar)
      = List.replicate (8 - vs.length) padChar := by
    have := List.drop_left (vs.map base32.char) (List.replicate (8 - vs.length) padChar)
    rwa [hl] at this
  have ht : List.take vs.length (vs.map base32.char ++ List.replicate (8 - vs.length) padChar)
      = vs.map base32.char := by
    have := List.take_left (vs.map base32.char) (List.replicate (8 - vs.length) padChar)
    rwa [hl] at this
  unfold base32.decodeLast
  simp only [base32.b32_takeWhile_chars vs h, hl, hd, ht, base32.b32_values_chars vs h, if_true]

theorem base32.b32_decodeQuanta_last (c0 c1 c2 c3 c4 c5 c6 c7 : Byte)
    (hv : base32.values [c0, c1, c2, c3, c4, c5, c6, c7] = none) :
    base32.decodeQuanta [c0, c1, c2, c3, c4, c5, c6, c7]
      = base32.decodeLast [c0, c1, c2, c3, c4, c5, c6, c7] := by
  rw [base32.decodeQuanta, hv]
  simp only [if_true]

theorem base32.b32_decodeQuanta_encode (b : List Byte) :
    base32.decodeQuanta (base32.EncodeToString b) = .ok b := by
  induction b using base32.EncodeToString.induct with
  | case1 => rfl
  | case2 a =>
    have hl := base32.b32_decodeLast_padded _
      (base32.b32_take_lt 2 a.val 0 0 0 0 a.isLt (by decide) (by decide) (by decide) (by decide))
    have hv := base32.b32_values_pad ((base32.quantum a.val 0 0 0 0).take 2)
      (List.replicate 5 padChar)
    simp only [base32.quantum, List.take, List.map, List.length, List.replicate,
      List.cons_append, List.nil_append] at hl hv
    simp only [base32.EncodeToString, base32.padded, base32.quantum, List.take, List.map,
      List.replicate, List.cons_append, List.nil_append]
    rw [base32.b32_decodeQuanta_last _ _ _ _ _ _ _ _ hv, hl]
    simp only [if_true, List.getD_cons_zero, List.getD_cons_succ]
    rw [byte_eq _ a (by omega)]
  | case3 a b =>
    have hl := base32.b32_decodeLast_padded _
      (base32.b32_take_lt 4 a.val b.val 0 0 0 a.isLt b.isLt (by decide) (by decide) (by decide))
    have hv := base32.b32_values_pad ((base32.quantum a.val b.val 0 0 0).take 4)
      (List.replicate 3 padChar)
    simp only [base32.quantum, List.take, List.map, List.length, List.replicate,
      List.cons_append, List.nil_append] at hl hv
    simp only [base32.EncodeToString, base32.padded, base32.quantum, List.take, List.map,
      List.replicate, List.cons_append, List.nil_append]
    rw [base32.b32_decodeQuanta_last _ _ _ _ _ _ _ _ hv, hl]
    simp
    exact ⟨byte_eq _ _ (by omega), byte_eq _ _ (by omega)⟩
  | case4 a b c =>
    have hl := base32.b32_decodeLast_padded _
      (base32.b32_take_lt 5 a.val b.val c.val 0 0 a.isLt b.isLt c.isLt (by decide) (by decide))
    have hv := base32.b32_values_pad ((base32.quantum a.val b.val c.val 0 0).take 5)
      (List.replicate 2 padChar)
    simp only [base32.quantum, List.take, List.map, List.length, List.replicate,
      List.cons_append, List.nil_append] at hl hv
    simp only [base32.EncodeToString, base32.padded, base32.quantum, List.take, List.map,
      List.replicate, List.cons_append, List.nil_append]
    rw [base32.b32_decodeQuanta_last _ _ _ _ _ _ _ _ hv, hl]
    simp
    exact ⟨byte_eq _ _ (by omega), byte_eq _ _ (by omega), byte_eq _ _ (by omega)⟩
  | case5 a b c d =>
    have hl := base32.b32_decodeLast_padded _
      (base32.b32_take_lt 7 a.val b.val c.val d.val 0 a.isLt b.isLt c.isLt d.isLt (by decide))
    have hv := base32.b32_values_pad ((base32.quantum a.val b.val c.val d.val 0).take 7)
      (List.replicate 0 padChar)
    simp only [base32.quantum, List.take, List.map, List.length, List.replicate,
      List.cons_append, List.nil_append] at hl hv
    simp only [base32.EncodeToString, base32.padded, base32.quantum, List.take, List.map,
      List.replicate, List.cons_append, List.nil_append]
    rw [base32.b32_decodeQuanta_last _ _ _ _ _ _ _ _ hv, hl]
    simp
    exact ⟨byte_eq _ _ (by omega), byte_eq _ _ (by omega), byte_eq _ _ (by omega),
      byte_eq _ _ (by omega)⟩
  | case6 a b c d e rest ih =>
    simp only [base32.EncodeToString]
    rw [base32.b32_decodeQuanta_group, ih]

theorem base32.b32_decode_encode (b : List Byte) :
    base32.DecodeString (base32.EncodeToString b) = .ok b := by
  unfold base32.DecodeString
  rw [base32.b32_strip_encode, base32.b32_decodeQuanta_encode]

/-- The RFC 4648 encodings satisfy the contract of the text encodings. -/
theorem rfc4648_lossless : rfc4648.Lossless :=
  ⟨base64.b64_decode_encode, base32.b32_decode_encode, hex.hex_decode_encode⟩

/-! ## Public keys: text forms -/

theorem sm2p256v1.onCurveInField : sm2p256v1.crypto.OnCurveInField := by
  intro x y h
  have hP : (sm2p256v1.P : Int) < 2 ^ 256 := by norm_num [sm2p256v1.P]
  simp only [sm2p256v1.crypto, sm2p256v1.IsOnCurve, decide_eq_true_eq] at h
  obtain ⟨hx0, hx, hy0, hy, _⟩ := h
  exact ⟨hx0, lt_trans hx hP, hy0, lt_trans hy hP⟩

/-- C4: for an on-curve public key, each of the three text forms decodes back
to the key: `PublicKeyFromB64String(p.ToB64String())`,
`PublicKeyFromB32String(p.ToB32String())` and
`PublicKeyFromHexString(p.ToHexString())` succeed with a key equal to `p`,
given that each text decoder inverts its encoder and that on-curve points have
coordinates in the field. -/
theorem PublicKey_text_roundtrip (enc : Encodings) (lib : Crypto) (p : PublicKey)
    (henc : enc.Lossless) (hlib : lib.OnCurveInField)
    (hcurve : lib.IsOnCurve p.X p.Y = true) :
    (∃ s, p.ToB64String enc = some s ∧ PublicKeyFromB64String enc lib s = (some p, none)) ∧
    (∃ s, p.ToB32String enc = some s ∧ PublicKeyFromB32String enc lib s = (some p, none)) ∧
    (∃ s, p.ToHexString enc = some s ∧ PublicKeyFromHexString enc lib s = (some p, none)) := by
  have hfield : p.InField := hlib p.X p.Y hcurve
  have hb := p.ToBytes_of_inField hfield
  have hfrom := PublicKeyFromBytes_bigEndian lib p hcurve hfield
  generalize (0x04 : Byte) :: (bigEndian 32 p.X.toNat ++ bigEndian 32 p.Y.toNat) = b at hb hfrom
  obtain ⟨h64, h32, h16⟩ := henc
  refine ⟨⟨enc.base64.EncodeToString b, ?_, ?_⟩, ⟨enc.base32.EncodeToString b, ?_, ?_⟩,
    ⟨enc.hex.EncodeToString b, ?_, ?_⟩⟩
  · simp [PublicKey.ToB64String, hb]
  · simp [PublicKeyFromB64String, h64 b, hfrom]
  · simp [PublicKey.ToB32String, hb]
  · simp [PublicKeyFromB32String, h32 b, hfrom]
  · simp [PublicKey.ToHexString, hb]
  · simp [PublicKeyFromHexString, h16 b, hfrom]

set_option maxRecDepth 100000 in
/-- Witness for C4: the base point of sm2p256v1 through the RFC 4648
encodings. -/
theorem PublicKey_text_roundtrip_witness :
    (rfc4648.Lossless ∧ sm2p256v1.crypto.OnCurveInField ∧
      sm2p256v1.crypto.IsOnCurve (PublicKey.mk sm2p256v1.Gx sm2p256v1.Gy).X
        (PublicKey.mk sm2p256v1.Gx sm2p256v1.Gy).Y = true) ∧
    ((∃ s, (PublicKey.mk sm2p256v1.Gx sm2p256v1.Gy).ToB64String rfc4648 = some s ∧
        PublicKeyFromB64String rfc4648 sm2p256v1.crypto s
          = (some (PublicKey.mk sm2p256v1.Gx sm2p256v1.Gy), none)) ∧
      (∃ s, (PublicKey.mk sm2p256v1.Gx sm2p256v1.Gy).ToB32String rfc4648 = some s ∧
        PublicKeyFromB32String rfc4648 sm2p256v1.crypto s
          = (some (PublicKey.mk sm2p256v1.Gx sm2p256v1.Gy), none)) ∧
      (∃ s, (PublicKey.mk sm2p256v1.Gx sm2p256v1.Gy).ToHexString rfc4648 = some s ∧
        PublicKeyFromHexString rfc4648 sm2p256v1.crypto s
          = (some (PublicKey.mk sm2p256v1.Gx sm2p256v1.Gy), none))) :=
  ⟨⟨rfc4648_lossless, sm2p256v1.onCurveInField, by decide⟩,
    PublicKey_text_roundtrip rfc4648 sm2p256v1.crypto ⟨sm2p256v1.Gx, sm2p256v1.Gy⟩
      rfc4648_lossless sm2p256v1.onCurveInField (by decide)⟩

/-! ## Private keys -/

/-- The loop runs to its end when the expected bytes sit in the stored bytes
from index `pre.length` on. -/
theorem comparePub_matching (pre l suf : List Byte) :
    comparePub (pre ++ l ++ suf) l pre.length = some true := by
  induction l generalizing pre with
  | nil => rfl
  | cons e rest ih =>
    have hget : (pre ++ e :: rest ++ suf)[pre.length]? = some e := by
      rw [List.append_assoc, List.getElem?_append_right (Nat.le_refl _)]
      simp
    have hstep := ih (pre ++ [e])
    simp only [List.append_assoc, List.singleton_append, List.length_append,
      List.length_singleton] at hstep
    unfold comparePub
    rw [hget]
    simp only [ne_eq, not_true_eq_false, if_false]
    simpa [List.append_assoc] using hstep

/-- The loop indexes out of range when the stored bytes end, without a
mismatch, before the expected bytes do. -/
theorem comparePub_short (pre l e : List Byte) (he : e ≠ []) :
    comparePub (pre ++ l) (l ++ e) pre.length = none := by
  induction l generalizing pre with
  | nil =>
    cases e with
    | nil => exact absurd rfl he
    | cons x xs =>
      have hget : (pre ++ ([] : List Byte))[pre.length]? = none := by simp
      simp only [List.nil_append]
      unfold comparePub
      rw [hget]
  | cons x rest ih =>
    have hget : (pre ++ x :: rest)[pre.length]? = some x := by
      rw [List.getElem?_append_right (Nat.le_refl _)]
      simp
    have hstep := ih (pre ++ [x])
    simp only [List.append_assoc, List.singleton_append, List.length_append,
      List.length_singleton] at hstep
    simp only [List.cons_append]
    unfold comparePub
    rw [hget]
    simp only [ne_eq, not_true_eq_false, if_false]
    exact hstep

/-- Outcome of `PrivateKeyFromBytes` once the record is decoded and the key rebuilt: the
outcome is that of the comparison loop. -/
theorem PrivateKeyFromBytes_of_decoded (codec : Codec) (lib : Crypto) (b : List Byte)
    (c : pkContainer) (key : PrivateKey) (kb : List Byte)
    (hdec : codec.fromBytes { Pub := [], D := none } b = (c, none))
    (hkey : lib.NewPrivateKeyFromInt c.D = .ok key)
    (hkb : key.GetPublicKey.ToBytes = some kb) :
    PrivateKeyFromBytes codec lib b =
      match comparePub c.Pub kb 0 with
      | none => none
      | some false => some (none, some Error.ErrInvalidPublicKey)
      | some true => some (some key, none) := by
  unfold PublicKey.ToBytes PrivateKey.GetPublicKey at hkb
  unfold PrivateKeyFromBytes
  rw [hdec]
  simp only [hkey]
  cases hx : FillBytes key.X 32 with
  | none => simp [hx] at hkb
  | some xs =>
    cases hy : FillBytes key.Y 32 with
    | none => simp [hx, hy] at hkb
    | some ys =>
      simp only [hx, hy, Option.some.injEq] at hkb
      subst hkb
      rfl

/-- What `PrivateKey.ToBytes` hands the codec: the record of the public-point bytes
and the scalar. -/
theorem PrivateKey.ToBytes_eq (codec : Codec) (k : PrivateKey) (kb : List Byte)
    (hkb : k.GetPublicKey.ToBytes = some kb) :
    k.ToBytes codec = some (codec.toBytes { Pub := kb, D := some k.D }) := by
  unfold PublicKey.ToBytes PrivateKey.GetPublicKey at hkb
  unfold PrivateKey.ToBytes
  cases hx : FillBytes k.X 32 with
  | none => simp [hx] at hkb
  | some xs =>
    cases hy : FillBytes k.Y 32 with
    | none => simp [hx, hy] at hkb
    | some ys =>
      simp only [hx, hy, Option.some.injEq] at hkb
      subst hkb
      rfl

/-- C5, as amended: for a private key that `sm2.NewPrivateKeyFromInt` rebuilds
from its scalar (the library accepts `D`, which must lie in `1 .. N - 2`, and
derives `(X, Y) = D · G`), `PrivateKeyFromBytes(k.ToBytes())` succeeds and
returns `k`, and so do the base64, base32 and hex forms, given that the codec
reads back the record it wrote for `k` and that each text decoder inverts its
encoder. -/
theorem PrivateKey_roundtrip (enc : Encodings) (codec : Codec) (lib : Crypto) (k : PrivateKey)
    (henc : enc.Lossless) (hkey : lib.IsKey k) (hfield : k.GetPublicKey.InField)
    (hcodec : ∀ kb, k.GetPublicKey.ToBytes = some kb →
      codec.RoundTrips { Pub := kb, D := some k.D }) :
    (∃ b, k.ToBytes codec = some (b, none) ∧
      PrivateKeyFromBytes codec lib b = some (some k, none)) ∧
    (∃ s, k.ToB64String enc codec = some (s, none) ∧
      PrivateKeyFromB64String enc codec lib s = some (some k, none)) ∧
    (∃ s, k.ToB32String enc codec = some (s, none) ∧
      PrivateKeyFromB32String enc codec lib s = some (some k, none)) ∧
    (∃ s, k.ToHexString enc codec = some (s, none) ∧
      PrivateKeyFromHexString enc codec lib s = some (some k, none)) := by
  have hkb := k.GetPublicKey.ToBytes_of_inField hfield
  obtain ⟨b, hto, hfrom⟩ := hcodec _ hkb
  have hTo : k.ToBytes codec = some (b, none) := by
    rw [PrivateKey.ToBytes_eq codec k _ hkb, hto]
  have hFrom : PrivateKeyFromBytes codec lib b = some (some k, none) := by
    rw [PrivateKeyFromBytes_of_decoded codec lib b _ k _ hfrom hkey hkb]
    have hcmp := comparePub_matching []
      ((0x04 : Byte) :: (bigEndian 32 k.GetPublicKey.X.toNat ++
        bigEndian 32 k.GetPublicKey.Y.toNat)) []
    simp only [List.nil_append, List.append_nil, List.length_nil] at hcmp
    simp only [hcmp]
  obtain ⟨h64, h32, h16⟩ := henc
  refine ⟨⟨b, hTo, hFrom⟩, ⟨enc.base64.EncodeToString b, ?_, ?_⟩,
    ⟨enc.base32.EncodeToString b, ?_, ?_⟩, ⟨enc.hex.EncodeToString b, ?_, ?_⟩⟩
  · simp [PrivateKey.ToB64String, hTo]
  · simp [PrivateKeyFromB64String, h64 b, hFrom]
  · simp [PrivateKey.ToB32String, hTo]
  · simp [PrivateKeyFromB32String, h32 b, hFrom]
  · simp [PrivateKey.ToHexString, hTo]
  · simp [PrivateKeyFromHexString, h16 b, hFrom]

theorem FillBytes_length (x : Int) (n : Nat) (xs : List Byte) (h : FillBytes x n = some xs) :
    xs.length = n := by
  unfold FillBytes at h
  split at h
  · simp only [Option.some.injEq] at h
    rw [← h, length_bigEndian]
  · exact absurd h (by simp)

theorem PublicKey.ToBytes_length (k : PublicKey) (kb : List Byte) (h : k.ToBytes = some kb) :
    kb.length = 65 := by
  unfold PublicKey.ToBytes at h
  cases hx : FillBytes k.X 32 with
  | none => simp [hx] at h
  | some xs =>
    cases hy : FillBytes k.Y 32 with
    | none => simp [hx, hy] at h
    | some ys =>
      simp only [hx, hy, Option.some.injEq] at h
      rw [← h]
      simp [FillBytes_length _ _ _ hx, FillBytes_length _ _ _ hy]

/-- The length-prefixed codec reads back what it wrote. -/
theorem lengthPrefixed_roundTrips (pub : List Byte) (d : Int) (hlen : pub.length < 256)
    (hd0 : 0 ≤ d) (hd : d < 2 ^ 256) :
    lengthPrefixed.RoundTrips { Pub := pub, D := some d } := by
  have e : (256 : Nat) ^ 32 = 2 ^ 256 := by norm_num
  have hdn : d.toNat < 256 ^ 32 := by rw [e]; omega
  have hbyte : (byte pub.length).val = pub.length := by
    simp [byte, Nat.mod_eq_of_lt hlen]
  refine ⟨byte pub.length :: (pub ++ bigEndian 32 d.toNat), ?_, ?_⟩
  · simp only [lengthPrefixed, hlen, hd0, hd, and_self, if_true]
  · have htake : List.take pub.length (pub ++ bigEndian 32 d.toNat) = pub := List.take_left _ _
    have hdrop : List.drop pub.length (pub ++ bigEndian 32 d.toNat) = bigEndian 32 d.toNat :=
      List.drop_left _ _
    simp only [lengthPrefixed, hbyte, List.length_append, length_bigEndian, if_true, htake,
      hdrop, SetBytes_bigEndian _ _ hdn]
    rw [show Int.ofNat d.toNat = d from Int.toNat_of_nonneg hd0]

set_option maxRecDepth 100000 in
/-- Witness for C5: the key of scalar 2 on sm2p256v1, through the
length-prefixed codec and the RFC 4648 encodings. -/
theorem PrivateKey_roundtrip_witness :
    (rfc4648.Lossless ∧ sm2p256v1.crypto.IsKey sm2p256v1.key2 ∧
      sm2p256v1.key2.GetPublicKey.InField ∧
      ∀ kb, sm2p256v1.key2.GetPublicKey.ToBytes = some kb →
        lengthPrefixed.RoundTrips { Pub := kb, D := some sm2p256v1.key2.D }) ∧
    ((∃ b, sm2p256v1.key2.ToBytes lengthPrefixed = some (b, none) ∧
        PrivateKeyFromBytes lengthPrefixed sm2p256v1.crypto b
          = some (some sm2p256v1.key2, none)) ∧
      (∃ s, sm2p256v1.key2.ToB64String rfc4648 lengthPrefixed = some (s, none) ∧
        PrivateKeyFromB64String rfc4648 lengthPrefixed sm2p256v1.crypto s
          = some (some sm2p256v1.key2, none)) ∧
      (∃ s, sm2p256v1.key2.ToB32String rfc4648 lengthPrefixed = some (s, none) ∧
        PrivateKeyFromB32String rfc4648 lengthPrefixed sm2p256v1.crypto s
          = some (some sm2p256v1.key2, none)) ∧
      (∃ s, sm2p256v1.key2.ToHexString rfc4648 lengthPrefixed = some (s, none) ∧
        PrivateKeyFromHexString rfc4648 lengthPrefixed sm2p256v1.crypto s
          = some (some sm2p256v1.key2, none))) :=
  have hc : ∀ kb, sm2p256v1.key2.GetPublicKey.ToBytes = some kb →
      lengthPrefixed.RoundTrips { Pub := kb, D := some sm2p256v1.key2.D } :=
    fun kb h => lengthPrefixed_roundTrips kb 2
      (by rw [PublicKey.ToBytes_length _ kb h]; decide) (by decide) (by decide)
  ⟨⟨rfc4648_lossless, by decide, by decide, hc⟩,
    PrivateKey_roundtrip rfc4648 lengthPrefixed sm2p256v1.crypto sm2p256v1.key2
      rfc4648_lossless (by decide) (by decide) hc⟩

/-- C6 (the code departs from the claim): when the decoded record stores the
65 recomputed public-point bytes followed by any further bytes,
`PrivateKeyFromBytes` returns the key and no error. The loop visits the 65
indices of `expectedPub` only, so a stored `Pub` longer than 65 bytes with the
right first 65 bytes is accepted. -/
theorem PrivateKeyFromBytes_accepts_longer_pub (codec : Codec) (lib : Crypto) (b : List Byte)
    (D : Option Int) (key : PrivateKey) (kb extra : List Byte)
    (hdec : codec.fromBytes { Pub := [], D := none } b = ({ Pub := kb ++ extra, D := D }, none))
    (hkey : lib.NewPrivateKeyFromInt D = .ok key)
    (hkb : key.GetPublicKey.ToBytes = some kb) :
    PrivateKeyFromBytes codec lib b = some (some key, none) := by
  rw [PrivateKeyFromBytes_of_decoded codec lib b _ key kb hdec hkey hkb]
  have hcmp := comparePub_matching [] kb extra
  simp only [List.nil_append, List.length_nil] at hcmp
  simp only [hcmp]

set_option maxRecDepth 100000 in
/-- Witness for C6: a record whose `Pub` is the 65 bytes of `2 · G` followed by
one zero byte, with `D = 2`. -/
theorem PrivateKeyFromBytes_accepts_longer_pub_witness :
    (lengthPrefixed.fromBytes { Pub := [], D := none }
        ((66 : Byte) :: (sm2p256v1.key2Pub ++ [(0 : Byte)] ++ bigEndian 32 2))
        = ({ Pub := sm2p256v1.key2Pub ++ [(0 : Byte)], D := some 2 }, none) ∧
      sm2p256v1.crypto.NewPrivateKeyFromInt (some 2) = .ok sm2p256v1.key2 ∧
      sm2p256v1.key2.GetPublicKey.ToBytes = some sm2p256v1.key2Pub) ∧
    PrivateKeyFromBytes lengthPrefixed sm2p256v1.crypto
        ((66 : Byte) :: (sm2p256v1.key2Pub ++ [(0 : Byte)] ++ bigEndian 32 2))
      = some (some sm2p256v1.key2, none) :=
  ⟨⟨by decide, by decide, by decide⟩,
    PrivateKeyFromBytes_accepts_longer_pub lengthPrefixed sm2p256v1.crypto
      ((66 : Byte) :: (sm2p256v1.key2Pub ++ [(0 : Byte)] ++ bigEndian 32 2)) (some 2)
      sm2p256v1.key2 sm2p256v1.key2Pub [(0 : Byte)] (by decide) (by decide) (by decide)⟩

/-- C7 (the code departs from the claim): when the decoded record stores a
proper prefix of the 65 recomputed public-point bytes (in particular no bytes
at all), the comparison loop indexes `c.Pub` out of range and
`PrivateKeyFromBytes` panics instead of returning a key or an error. -/
theorem PrivateKeyFromBytes_panics_on_short_pub (codec : Codec) (lib : Crypto) (b : List Byte)
    (D : Option Int) (key : PrivateKey) (pub missing : List Byte)
    (hdec : codec.fromBytes { Pub := [], D := none } b = ({ Pub := pub, D := D }, none))
    (hkey : lib.NewPrivateKeyFromInt D = .ok key)
    (hkb : key.GetPublicKey.ToBytes = some (pub ++ missing))
    (hmissing : missing ≠ []) :
    PrivateKeyFromBytes codec lib b = none := by
  rw [PrivateKeyFromBytes_of_decoded codec lib b _ key _ hdec hkey hkb]
  have hcmp := comparePub_short [] pub missing hmissing
  simp only [List.nil_append, List.length_nil] at hcmp
  simp only [hcmp]

set_option maxRecDepth 100000 in
/-- Witness for C7: a record with an empty `Pub` and `D = 2`. -/
theorem PrivateKeyFromBytes_panics_on_short_pub_witness :
    (lengthPrefixed.fromBytes { Pub := [], D := none } ((0 : Byte) :: bigEndian 32 2)
        = ({ Pub := [], D := some 2 }, none) ∧
      sm2p256v1.crypto.NewPrivateKeyFromInt (some 2) = .ok sm2p256v1.key2 ∧
      sm2p256v1.key2.GetPublicKey.ToBytes = some ([] ++ sm2p256v1.key2Pub) ∧
      sm2p256v1.key2Pub ≠ []) ∧
    PrivateKeyFromBytes lengthPrefixed sm2p256v1.crypto ((0 : Byte) :: bigEndian 32 2) = none :=
  ⟨⟨by decide, by decide, by decide, by decide⟩,
    PrivateKeyFromBytes_panics_on_short_pub lengthPrefixed sm2p256v1.crypto
      ((0 : Byte) :: bigEndian 32 2) (some 2) sm2p256v1.key2 [] sm2p256v1.key2Pub
      (by decide) (by decide) (by decide) (by decide)⟩

/-! ## Licenses -/

theorem FillBytes_SetBytes (x : Int) (n : Nat) (xs : List Byte) (h : FillBytes x n = some xs) :
    SetBytes xs = Int.ofNat x.natAbs := by
  unfold FillBytes at h
  split at h
  · rename_i hlt
    simp only [Option.some.injEq] at h
    rw [← h, SetBytes_bigEndian _ _ hlt]
  · exact absurd h (by simp)

/-- The two coordinates read back from the bytes `ToBytes` produced. -/
theorem PublicKey.ToBytes_read (k : PublicKey) (kb : List Byte) (h : k.ToBytes = some kb) :
    kb.length = 65 ∧ kb[0]? = some (0x04 : Byte) ∧
      SetBytes (slice kb 1 33) = Int.ofNat k.X.natAbs ∧
      SetBytes (slice kb 33 65) = Int.ofNat k.Y.natAbs := by
  have hlen := k.ToBytes_length kb h
  unfold PublicKey.ToBytes at h
  cases hx : FillBytes k.X 32 with
  | none => simp [hx] at h
  | some xs =>
    cases hy : FillBytes k.Y 32 with
    | none => simp [hx, hy] at h
    | some ys =>
      simp only [hx, hy, Option.some.injEq] at h
      subst h
      refine ⟨hlen, by simp, ?_, ?_⟩
      · rw [slice_x _ _ _ (FillBytes_length _ _ _ hx)]
        exact FillBytes_SetBytes _ _ _ hx
      · rw [slice_y _ _ _ (FillBytes_length _ _ _ hx) (FillBytes_length _ _ _ hy)]
        exact FillBytes_SetBytes _ _ _ hy

theorem sm2p256v1.acceptsOnCurve : sm2p256v1.crypto.AcceptsOnCurve := by
  intro p hcurve kb hkb
  have hin := sm2p256v1.onCurveInField p.X p.Y hcurve
  simp only [PublicKey.InField] at hin
  obtain ⟨hx0, _, hy0, _⟩ := hin
  obtain ⟨hlen, htag, hx, hy⟩ := p.ToBytes_read kb hkb
  have ex : Int.ofNat p.X.natAbs = p.X := by
    show ((p.X.natAbs : Nat) : Int) = p.X
    omega
  have ey : Int.ofNat p.Y.natAbs = p.Y := by
    show ((p.Y.natAbs : Nat) : Int) = p.Y
    omega
  rw [ex] at hx
  rw [ey] at hy
  have hc : sm2p256v1.IsOnCurve p.X p.Y = true := hcurve
  refine ⟨{ X := p.X, Y := p.Y }, ?_⟩
  simp only [sm2p256v1.crypto, sm2p256v1.NewPublicKey, hlen, htag, hx, hy, hc, and_self,
    if_true]

theorem sm2p256v1.verifiesOwnSignatures : sm2p256v1.crypto.VerifiesOwnSignatures := by
  intro rnd k uid h r s kb pub _ hsign hkb hpub
  obtain ⟨_, _, hx, _⟩ := k.GetPublicKey.ToBytes_read kb hkb
  have hX : pub.X = Int.ofNat k.X.natAbs := by
    simp only [sm2p256v1.crypto, sm2p256v1.NewPublicKey] at hpub
    split at hpub
    · simp only [Except.ok.injEq] at hpub
      rw [← hpub]
      exact hx
    · exact absurd hpub (by simp)
  simp only [sm2p256v1.crypto] at hsign
  split at hsign
  · exact absurd hsign (by simp)
  · simp only [Except.ok.injEq, Prod.mk.injEq] at hsign
    obtain ⟨hr, hs⟩ := hsign
    have hn : (Int.ofNat k.X.natAbs).natAbs = k.X.natAbs := Int.natAbs_ofNat _
    simp only [sm2p256v1.crypto, hX, ← hr, ← hs, hn, and_self, decide_True]

/-- Outcome of `Verify` on a key whose bytes the library accepts: the result is the
verdict of `VerifyWithSM2` on the digest of the payload, with a nil error. -/
theorem License.Verify_of_accepted (lib : Crypto) (l : License) (k : PublicKey)
    (kb : List Byte) (pub : PublicKey) (r s : Int) (hkb : k.ToBytes = some kb)
    (hpub : lib.NewPublicKey kb = .ok pub) (hR : l.R = some r) (hS : l.S = some s) :
    l.Verify lib k = some (lib.VerifyWithSM2 pub none (lib.sm3 l.Data) l.R l.S, none) := by
  simp only [License.Verify, License.hash, hkb, hpub, hR, hS]

/-- Outcome of `Verify` on a License whose `R` or `S` is nil, under a key whose
bytes the library accepts: the call of `VerifyWithSM2` panics. -/
theorem License.Verify_of_nil (lib : Crypto) (l : License) (k : PublicKey)
    (kb : List Byte) (pub : PublicKey) (hkb : k.ToBytes = some kb)
    (hpub : lib.NewPublicKey kb = .ok pub) (h : l.R = none ∨ l.S = none) :
    l.Verify lib k = none := by
  rcases h with h | h
  · simp only [License.Verify, License.hash, hkb, hpub, h]
  · simp only [License.Verify, License.hash, hkb, hpub, h]
    cases l.R <;> rfl

/-- C8: when `NewLicense(k, d)` succeeds with license `L` for a key `k` with
`(X, Y) = D · G` on the curve, `L.Verify(k.GetPublicKey())` returns
`(true, nil)`, given that the primitive verifies its own signatures and accepts
the uncompressed encoding of an on-curve point. -/
theorem NewLicense_Verify (lib : Crypto) (rnd : List Byte) (k : PrivateKey) (d : List Byte)
    (L : License) (hfield : lib.OnCurveInField) (hacc : lib.AcceptsOnCurve)
    (hown : lib.VerifiesOwnSignatures) (hkey : lib.IsKey k)
    (hcurve : lib.IsOnCurve k.X k.Y = true)
    (hL : NewLicense lib rnd k d = (some L, none)) :
    L.Verify lib k.GetPublicKey = some (true, none) := by
  have hkb := k.GetPublicKey.ToBytes_of_inField (hfield k.X k.Y hcurve)
  obtain ⟨pub, hpub⟩ := hacc k.GetPublicKey hcurve _ hkb
  simp only [NewLicense, License.hash] at hL
  cases hs : lib.SignWithSM2 rnd k none (lib.sm3 d) with
  | error err => simp [hs] at hL
  | ok rs =>
    obtain ⟨r, s⟩ := rs
    simp only [hs, Prod.mk.injEq, Option.some.injEq, and_true] at hL
    subst hL
    rw [License.Verify_of_accepted lib _ k.GetPublicKey _ pub r s hkb hpub rfl rfl]
    simp only [hown rnd k none (lib.sm3 d) r s _ pub hkey hs hkb hpub]

set_option maxRecDepth 100000 in
/-- Witness for C8: the key of scalar 2 on sm2p256v1 signing "hello world". -/
theorem NewLicense_Verify_witness :
    (sm2p256v1.crypto.OnCurveInField ∧ sm2p256v1.crypto.AcceptsOnCurve ∧
      sm2p256v1.crypto.VerifiesOwnSignatures ∧ sm2p256v1.crypto.IsKey sm2p256v1.key2 ∧
      sm2p256v1.crypto.IsOnCurve sm2p256v1.key2.X sm2p256v1.key2.Y = true ∧
      NewLicense sm2p256v1.crypto [(1 : Byte)] sm2p256v1.key2 (ascii "hello world")
        = (some { Data := ascii "hello world",
                  R := some (Int.ofNat (sm2p256v1.key2.X.natAbs % sm2p256v1.N)),
                  S := some (SetBytes (sm2p256v1.crypto.sm3 (ascii "hello world"))) }, none)) ∧
    License.Verify sm2p256v1.crypto
        { Data := ascii "hello world",
          R := some (Int.ofNat (sm2p256v1.key2.X.natAbs % sm2p256v1.N)),
          S := some (SetBytes (sm2p256v1.crypto.sm3 (ascii "hello world"))) }
        sm2p256v1.key2.GetPublicKey
      = some (true, none) :=
  ⟨⟨sm2p256v1.onCurveInField, sm2p256v1.acceptsOnCurve, sm2p256v1.verifiesOwnSignatures,
      by decide, by decide, by decide⟩,
    NewLicense_Verify sm2p256v1.crypto [(1 : Byte)] sm2p256v1.key2 (ascii "hello world")
      { Data := ascii "hello world",
        R := some (Int.ofNat (sm2p256v1.key2.X.natAbs % sm2p256v1.N)),
        S := some (SetBytes (sm2p256v1.crypto.sm3 (ascii "hello world"))) }
      sm2p256v1.onCurveInField sm2p256v1.acceptsOnCurve sm2p256v1.verifiesOwnSignatures
      (by decide) (by decide) (by decide)⟩

/-- C9, as amended: for every license whose `R` and `S` are set and every
on-curve public key, `Verify` returns a nil error, and its boolean is the
verdict of the verification primitive on the digest of the payload and the
stored `R`, `S`; a signature that does not match therefore gives `false`, not
an error. The library is taken to accept the encoding of an on-curve point and
to keep on-curve coordinates in the field. -/
theorem License.Verify_no_error (lib : Crypto) (l : License) (k : PublicKey) (r s : Int)
    (hfield : lib.OnCurveInField) (hacc : lib.AcceptsOnCurve)
    (hcurve : lib.IsOnCurve k.X k.Y = true) (hR : l.R = some r) (hS : l.S = some s) :
    ∃ kb pub, k.ToBytes = some kb ∧ lib.NewPublicKey kb = .ok pub ∧
      l.Verify lib k = some (lib.VerifyWithSM2 pub none (lib.sm3 l.Data) l.R l.S, none) := by
  have hkb := k.ToBytes_of_inField (hfield k.X k.Y hcurve)
  obtain ⟨pub, hpub⟩ := hacc k hcurve _ hkb
  exact ⟨_, pub, hkb, hpub, License.Verify_of_accepted lib l k _ pub r s hkb hpub hR hS⟩

set_option maxRecDepth 100000 in
/-- Witness for C9: a license with a made-up signature under the base point of
sm2p256v1; the verdict is `false` and the error is nil. -/
theorem License.Verify_no_error_witness :
    (sm2p256v1.crypto.OnCurveInField ∧ sm2p256v1.crypto.AcceptsOnCurve ∧
      sm2p256v1.crypto.IsOnCurve (PublicKey.mk sm2p256v1.Gx sm2p256v1.Gy).X
        (PublicKey.mk sm2p256v1.Gx sm2p256v1.Gy).Y = true ∧
      (License.mk (ascii "hello world") (some 1) (some 1)).R = some 1 ∧
      (License.mk (ascii "hello world") (some 1) (some 1)).S = some 1) ∧
    ∃ kb pub, (PublicKey.mk sm2p256v1.Gx sm2p256v1.Gy).ToBytes = some kb ∧
      sm2p256v1.crypto.NewPublicKey kb = .ok pub ∧
      License.Verify sm2p256v1.crypto
          { Data := ascii "hello world", R := some 1, S := some 1 }
          (PublicKey.mk sm2p256v1.Gx sm2p256v1.Gy)
        = some (sm2p256v1.crypto.VerifyWithSM2 pub none
            (sm2p256v1.crypto.sm3
              (License.mk (ascii "hello world") (some 1) (some 1)).Data)
            (License.mk (ascii "hello world") (some 1) (some 1)).R
            (License.mk (ascii "hello world") (some 1) (some 1)).S, none) :=
  ⟨⟨sm2p256v1.onCurveInField, sm2p256v1.acceptsOnCurve, by decide, rfl, rfl⟩,
    License.Verify_no_error sm2p256v1.crypto
      { Data := ascii "hello world", R := some 1, S := some 1 }
      ⟨sm2p256v1.Gx, sm2p256v1.Gy⟩ 1 1
      sm2p256v1.onCurveInField sm2p256v1.acceptsOnCurve (by decide) rfl rfl⟩

set_option maxRecDepth 100000 in
/-- Counterexample to C9 as stated: the License `{"hello world", nil, nil}`
under the base point of sm2p256v1, an on-curve key. `Verify` does not return a
nil error; it panics in the call of `sm2.VerifyWithSM2`. -/
theorem License.Verify_no_error_counterexample :
    sm2p256v1.crypto.IsOnCurve (PublicKey.mk sm2p256v1.Gx sm2p256v1.Gy).X
        (PublicKey.mk sm2p256v1.Gx sm2p256v1.Gy).Y = true ∧
    License.Verify sm2p256v1.crypto { Data := ascii "hello world", R := none, S := none }
        (PublicKey.mk sm2p256v1.Gx sm2p256v1.Gy) = none ∧
    ¬ ∃ ok, License.Verify sm2p256v1.crypto
        { Data := ascii "hello world", R := none, S := none }
        (PublicKey.mk sm2p256v1.Gx sm2p256v1.Gy) = some (ok, none) := by
  have h : License.Verify sm2p256v1.crypto
      { Data := ascii "hello world", R := none, S := none }
      (PublicKey.mk sm2p256v1.Gx sm2p256v1.Gy) = none := by decide
  refine ⟨by decide, h, ?_⟩
  rintro ⟨ok, hok⟩
  rw [h] at hok
  exact absurd hok (by simp)

theorem FillBytes_of_overflow (x : Int) (n : Nat) (h : 256 ^ n ≤ x.natAbs) :
    FillBytes x n = none := by
  simp [FillBytes, Nat.not_lt.mpr h]

/-- C10 (the code departs from the claim): when a coordinate of the public key
does not fit in 32 bytes, `Verify` panics inside `k.ToBytes()` (`FillBytes`
aborts) before `sm2.NewPublicKey` is called; it does not return
`(false, err)`. -/
theorem License.Verify_panics_on_oversized (lib : Crypto) (l : License) (k : PublicKey)
    (h : 2 ^ 256 ≤ k.X.natAbs ∨ 2 ^ 256 ≤ k.Y.natAbs) :
    l.Verify lib k = none := by
  have e : (256 : Nat) ^ 32 = 2 ^ 256 := by norm_num
  have hkb : k.ToBytes = none := by
    unfold PublicKey.ToBytes
    rcases h with h | h
    · rw [FillBytes_of_overflow k.X 32 (by rw [e]; exact h)]
    · rw [FillBytes_of_overflow k.Y 32 (by rw [e]; exact h)]
      cases FillBytes k.X 32 <;> rfl
  simp only [License.Verify, License.hash, hkb]

set_option maxRecDepth 100000 in
/-- Witness for C10: the key `(2^256, 0)`. -/
theorem License.Verify_panics_on_oversized_witness :
    (2 ^ 256 ≤ (PublicKey.mk (2 ^ 256) 0).X.natAbs ∨
      2 ^ 256 ≤ (PublicKey.mk (2 ^ 256) 0).Y.natAbs) ∧
    License.Verify sm2p256v1.crypto { Data := ascii "hello world", R := some 1, S := some 1 }
      (PublicKey.mk (2 ^ 256) 0) = none :=
  ⟨by decide,
    License.Verify_panics_on_oversized sm2p256v1.crypto
      { Data := ascii "hello world", R := some 1, S := some 1 } ⟨2 ^ 256, 0⟩ (by decide)⟩

/-! ## License decoding -/

/-- C11 (the code departs from the claim): each of `LicenseFromBytes`,
`LicenseFromB64String`, `LicenseFromB32String` and `LicenseFromHexString`
returns a non-nil License on every input; when decoding fails with an error,
the License returned with that error is the record the decoder left behind,
not nil. -/
theorem LicenseFrom_returns_license_with_error (lc : LicenseCodec) (b str : List Byte) :
    (∀ err, (LicenseFromBytes lc b).2 = some err →
      ∃ l, LicenseFromBytes lc b = (some l, some err)) ∧
    (∀ err, (LicenseFromB64String lc str).2 = some err →
      ∃ l, LicenseFromB64String lc str = (some l, some err)) ∧
    (∀ err, (LicenseFromB32String lc str).2 = some err →
      ∃ l, LicenseFromB32String lc str = (some l, some err)) ∧
    (∀ err, (LicenseFromHexString lc str).2 = some err →
      ∃ l, LicenseFromHexString lc str = (some l, some err)) := by
  refine ⟨?_, ?_, ?_, ?_⟩
  · intro err h
    exact ⟨(lc.fromBytes { Data := [], R := none, S := none } b).1, by
      simp only [LicenseFromBytes] at h ⊢; rw [h]⟩
  · intro err h
    exact ⟨(lc.fromB64String { Data := [], R := none, S := none } str).1, by
      simp only [LicenseFromB64String] at h ⊢; rw [h]⟩
  · intro err h
    exact ⟨(lc.fromB32String { Data := [], R := none, S := none } str).1, by
      simp only [LicenseFromB32String] at h ⊢; rw [h]⟩
  · intro err h
    exact ⟨(lc.fromHexString { Data := [], R := none, S := none } str).1, by
      simp only [LicenseFromHexString] at h ⊢; rw [h]⟩

/-- Witness for C11: a record that ends after the payload "hi" (bytes
`02 68 69`, hex text `026869`). Decoding fails and the License that comes back
carries the payload read so far. -/
theorem LicenseFrom_returns_license_with_error_witness :
    (LicenseFromBytes lengthPrefixedLicense [(2 : Byte), 104, 105]
        = (some { Data := [(104 : Byte), 105], R := none, S := none },
            some (Error.external "codec: wrong length")) ∧
      LicenseFromHexString lengthPrefixedLicense (ascii "026869")
        = (some { Data := [(104 : Byte), 105], R := none, S := none },
            some (Error.external "codec: wrong length"))) ∧
    ((∃ l, LicenseFromBytes lengthPrefixedLicense [(2 : Byte), 104, 105]
        = (some l, some (Error.external "codec: wrong length"))) ∧
      (∃ l, LicenseFromHexString lengthPrefixedLicense (ascii "026869")
        = (some l, some (Error.external "codec: wrong length")))) :=
  ⟨⟨by decide, by decide⟩,
    (LicenseFrom_returns_license_with_error lengthPrefixedLicense [(2 : Byte), 104, 105]
        (ascii "026869")).1 _ (by decide),
    (LicenseFrom_returns_license_with_error lengthPrefixedLicense [(2 : Byte), 104, 105]
        (ascii "026869")).2.2.2 _ (by decide)⟩

/-! ## Private keys: errors -/

/-- A result of `PrivateKeyFromBytes` that carries an error carries no key. -/
theorem PrivateKeyFromBytes_error_nil (codec : Codec) (lib : Crypto) (b : List Byte)
    (k : Option PrivateKey) (err : Error)
    (h : PrivateKeyFromBytes codec lib b = some (k, some err)) : k = none := by
  unfold PrivateKeyFromBytes at h
  split at h
  · simp only [Option.some.injEq, Prod.mk.injEq] at h
    exact h.1.symm
  · split at h
    · simp only [Option.some.injEq, Prod.mk.injEq] at h
      exact h.1.symm
    · split at h
      · exact absurd h (by simp)
      · split at h
        · exact absurd h (by simp)
        · split at h
          · exact absurd h (by simp)
          · simp only [Option.some.injEq, Prod.mk.injEq] at h
            exact h.1.symm
          · simp only [Option.some.injEq, Prod.mk.injEq] at h
            exact absurd h.2 (by simp)

/-- C12: whenever `PrivateKeyFromBytes`, `PrivateKeyFromB64String`,
`PrivateKeyFromB32String` or `PrivateKeyFromHexString` returns a non-nil error,
the key returned with it is nil. -/
theorem PrivateKeyFrom_error_nil_key (enc : Encodings) (codec : Codec) (lib : Crypto)
    (b str : List Byte) :
    (∀ k err, PrivateKeyFromBytes codec lib b = some (k, some err) → k = none) ∧
    (∀ k err, PrivateKeyFromB64String enc codec lib str = some (k, some err) → k = none) ∧
    (∀ k err, PrivateKeyFromB32String enc codec lib str = some (k, some err) → k = none) ∧
    (∀ k err, PrivateKeyFromHexString enc codec lib str = some (k, some err) → k = none) := by
  refine ⟨fun k err h => PrivateKeyFromBytes_error_nil codec lib b k err h, ?_, ?_, ?_⟩
  · intro k err h
    unfold PrivateKeyFromB64String at h
    split at h
    · simp only [Option.some.injEq, Prod.mk.injEq] at h
      exact h.1.symm
    · exact PrivateKeyFromBytes_error_nil codec lib _ k err h
  · intro k err h
    unfold PrivateKeyFromB32String at h
    split at h
    · simp only [Option.some.injEq, Prod.mk.injEq] at h
      exact h.1.symm
    · exact PrivateKeyFromBytes_error_nil codec lib _ k err h
  · intro k err h
    unfold PrivateKeyFromHexString at h
    split at h
    · simp only [Option.some.injEq, Prod.mk.injEq] at h
      exact h.1.symm
    · exact PrivateKeyFromBytes_error_nil codec lib _ k err h

set_option maxRecDepth 100000 in
/-- Witness for C12: the empty byte string, which the codec refuses; a text
that is not hexadecimal; and a record whose stored public point is that of
another key, which the comparison loop refuses. -/
theorem PrivateKeyFrom_error_nil_key_witness :
    (PrivateKeyFromBytes lengthPrefixed sm2p256v1.crypto []
        = some (none, some (Error.external "codec: unexpected end of input")) ∧
      PrivateKeyFromHexString rfc4648 lengthPrefixed sm2p256v1.crypto (ascii "zz")
        = some (none, some (Error.external "encoding/hex: invalid byte")) ∧
      PrivateKeyFromBytes lengthPrefixed sm2p256v1.crypto
          ((65 : Byte) :: (sm2p256v1.key2Pub ++ bigEndian 32 1))
        = some (none, some Error.ErrInvalidPublicKey)) ∧
    ((none : Option PrivateKey) = none ∧ (none : Option PrivateKey) = none ∧
      (none : Option PrivateKey) = none) :=
  ⟨⟨by decide, by decide, by decide⟩,
    (PrivateKeyFrom_error_nil_key rfc4648 lengthPrefixed sm2p256v1.crypto [] (ascii "zz")).1
      none (Error.external "codec: unexpected end of input") (by decide),
    (PrivateKeyFrom_error_nil_key rfc4648 lengthPrefixed sm2p256v1.crypto [] (ascii "zz")).2.2.2
      none (Error.external "encoding/hex: invalid byte") (by decide),
    (PrivateKeyFrom_error_nil_key rfc4648 lengthPrefixed sm2p256v1.crypto
      ((65 : Byte) :: (sm2p256v1.key2Pub ++ bigEndian 32 1)) []).1
      none Error.ErrInvalidPublicKey (by decide)⟩

/-! ## What the decoders accept -/

theorem decodeMap_mem (alphabet : List Byte) (c : Byte) (i : Nat)
    (h : decodeMap alphabet c = some i) : c ∈ alphabet := by
  unfold decodeMap at h
  simp only [] at h
  split at h
  · rename_i hlt
    exact List.indexOf_lt_length.mp hlt
  · exact absurd h (by simp)

theorem hex.hex_fromHexChar_digit (c : Byte) (v : Nat) (h : hex.fromHexChar c = some v) :
    (48 ≤ c.val ∧ c.val ≤ 57) ∨ (97 ≤ c.val ∧ c.val ≤ 102) ∨ (65 ≤ c.val ∧ c.val ≤ 70) := by
  unfold hex.fromHexChar at h
  split at h
  · left; assumption
  · split at h
    · right; left; assumption
    · split at h
      · right; right; assumption
      · exact absurd h (by simp)

/-- The hex decoder accepts hexadecimal text only. -/
theorem hex.hex_accepts_text (s out : List Byte) (h : hex.DecodeString s = .ok out) :
    hex.IsText s := by
  induction s using hex.DecodeString.induct generalizing out with
  | case1 => exact ⟨rfl, fun c hc => absurd hc (List.not_mem_nil c)⟩
  | case2 head => simp [hex.DecodeString] at h
  | case3 p q rest a b hq hp out2 hrest ih =>
    obtain ⟨hlen, hmem⟩ := ih out2 hrest
    refine ⟨by simp only [List.length_cons]; omega, ?_⟩
    intro c hc
    simp only [List.mem_cons] at hc
    rcases hc with hc | hc | hc
    · rw [hc]; exact hex.hex_fromHexChar_digit p a hp
    · rw [hc]; exact hex.hex_fromHexChar_digit q b hq
    · exact hmem c hc
  | case4 p q rest a b hq hp err hrest ih =>
    simp [hex.DecodeString, hp, hq, hrest] at h
  | case5 p q rest hno =>
    unfold hex.DecodeString at h
    split at h
    · rename_i a b ha hb
      exact absurd (hno a b ha hb) id
    · exact absurd h (by simp)

/-- The base64 decoder accepts well-formed padded text only. -/
theorem base64.b64_accepts_quanta (t out : List Byte) (h : base64.decodeQuanta t = .ok out) :
    base64.IsText t := by
  induction t using base64.decodeQuanta.induct generalizing out with
  | case1 => exact ⟨rfl, [], [], rfl, fun c hc => absurd hc (List.not_mem_nil c), Or.inl rfl⟩
  | case2 a b d rest x y hb ha hd =>
    obtain ⟨hd1, hd2⟩ := hd
    subst hd1 hd2
    refine ⟨by simp, [a, b], [padChar, padChar], rfl, ?_, Or.inr (Or.inr rfl)⟩
    intro c hc
    simp only [List.mem_cons, List.mem_singleton, List.not_mem_nil, or_false] at hc
    rcases hc with hc | hc
    · rw [hc]; exact decodeMap_mem _ _ _ ha
    · rw [hc]; exact decodeMap_mem _ _ _ hb
  | case3 a b d rest x y hb ha hd =>
    simp [base64.decodeQuanta, ha, hb, hd] at h
  | case4 a b c d rest x y hb ha hc hcn =>
    simp [base64.decodeQuanta, ha, hb, hc, hcn] at h
  | case5 a b c x y hb ha hc z hz =>
    refine ⟨by simp, [a, b, c], [padChar], rfl, ?_, Or.inr (Or.inl rfl)⟩
    intro e he
    simp only [List.mem_cons, List.mem_singleton, List.not_mem_nil, or_false] at he
    rcases he with he | he | he
    · rw [he]; exact decodeMap_mem _ _ _ ha
    · rw [he]; exact decodeMap_mem _ _ _ hb
    · rw [he]; exact decodeMap_mem _ _ _ hz
  | case6 a b c rest x y hb ha hc z hz hrest =>
    simp [base64.decodeQuanta, ha, hb, hc, hz, hrest] at h
  | case7 a b c d rest x y hb ha hc z hz hd hdn =>
    simp [base64.decodeQuanta, ha, hb, hc, hz, hd, hdn] at h
  | case8 a b c d rest x y hb ha hc z hz hd w hw out2 hrest ih =>
    obtain ⟨hlen, body, pads, hsplit, hbody, hpads⟩ := ih out2 hrest
    refine ⟨by simp only [List.length_cons]; omega, a :: b :: c :: d :: body, pads,
      by rw [hsplit]; rfl, ?_, hpads⟩
    intro e he
    simp only [List.mem_cons] at he
    rcases he with he | he | he | he | he
    · rw [he]; exact decodeMap_mem _ _ _ ha
    · rw [he]; exact decodeMap_mem _ _ _ hb
    · rw [he]; exact decodeMap_mem _ _ _ hz
    · rw [he]; exact decodeMap_mem _ _ _ hw
    · exact hbody e he
  | case9 a b c d rest x y hb ha hc z hz hd w hw err hrest ih =>
    simp [base64.decodeQuanta, ha, hb, hc, hz, hd, hw, hrest] at h
  | case10 a b c d rest hno =>
    unfold base64.decodeQuanta at h
    split at h
    · rename_i x y hx hy
      exact absurd (hno x y hx hy) id
    · exact absurd h (by simp)
  | case11 t hnil hcons =>
    unfold base64.decodeQuanta at h
    split at h
    · exact absurd rfl hnil
    · rename_i a b c d rest
      exact absurd (hcons a b c d rest rfl) id
    · exact absurd h (by simp)

theorem base32.b32_values_mem (l : List Byte) (v : List Nat) (h : base32.values l = some v) :
    ∀ c ∈ l, c ∈ base32.encodeStd := by
  induction l generalizing v with
  | nil => intro c hc; exact absurd hc (List.not_mem_nil c)
  | cons x rest ih =>
    unfold base32.values at h
    split at h
    · rename_i i vs hi hvs
      intro c hc
      simp only [List.mem_cons] at hc
      rcases hc with hc | hc
      · rw [hc]; exact decodeMap_mem _ _ _ hi
      · exact ih vs hvs c hc
    · exact absurd h (by simp)

theorem base32.b32_pad_not_mem : padChar ∉ base32.encodeStd := by decide

theorem take_takeWhile_length (p : Byte → Bool) (l : List Byte) :
    l.take (l.takeWhile p).length = l.takeWhile p := by
  induction l with
  | nil => rfl
  | cons x rest ih =>
    by_cases hx : p x = true
    · simp only [List.takeWhile_cons, hx, if_true, List.length_cons, List.take_succ_cons, ih]
    · simp only [List.takeWhile_cons, hx, if_false, List.length_nil, List.take_zero]
      simp

theorem takeWhile_append_all (p : Byte → Bool) (g rest : List Byte)
    (h : ∀ c ∈ g, p c = true) :
    (g ++ rest).takeWhile p = g ++ rest.takeWhile p := by
  induction g with
  | nil => rfl
  | cons x xs ih =>
    have hx := h x (List.mem_cons_self _ _)
    simp only [List.cons_append, List.takeWhile_cons, hx, if_true,
      ih (fun c hc => h c (List.mem_cons_of_mem _ hc))]

/-- The base32 decoder accepts only text whose characters before the first pad
are of the alphabet and which, without pad, has a multiple of eight
characters. -/
theorem base32.b32_accepts_quanta (t out : List Byte) (h : base32.decodeQuanta t = .ok out) :
    base32.IsText t := by
  induction t using base32.decodeQuanta.induct generalizing out with
  | case1 =>
    exact ⟨fun c hc => absurd hc (List.not_mem_nil c), fun _ => rfl⟩
  | case2 c0 c1 c2 c3 c4 c5 c6 c7 rest v hv out2 hrest ih =>
    obtain ⟨hchars, hlen⟩ := ih out2 hrest
    have hg := base32.b32_values_mem _ v hv
    have hnp : ∀ c ∈ [c0, c1, c2, c3, c4, c5, c6, c7],
        (fun c => decide (c ≠ padChar)) c = true := by
      intro c hc
      have hm := hg c hc
      simp only [ne_eq, decide_eq_true_eq]
      intro e
      rw [e] at hm
      exact base32.b32_pad_not_mem hm
    have hsplit : c0 :: c1 :: c2 :: c3 :: c4 :: c5 :: c6 :: c7 :: rest
        = [c0, c1, c2, c3, c4, c5, c6, c7] ++ rest := rfl
    constructor
    · intro c hc
      rw [hsplit, takeWhile_append_all _ _ _ hnp, List.mem_append] at hc
      rcases hc with hc | hc
      · exact hg c hc
      · exact hchars c hc
    · intro hpad
      have hr : padChar ∉ rest := by
        intro hin
        apply hpad
        rw [hsplit]
        exact List.mem_append_right _ hin
      have := hlen hr
      simp only [List.length_cons]
      omega
  | case3 c0 c1 c2 c3 c4 c5 c6 c7 rest v hv err hrest ih =>
    simp [base32.decodeQuanta, hv, hrest] at h
  | case4 c0 c1 c2 c3 c4 c5 c6 c7 hv =>
    rw [base32.b32_decodeQuanta_last _ _ _ _ _ _ _ _ hv] at h
    refine ⟨?_, fun _ => by simp⟩
    unfold base32.decodeLast at h
    simp only [] at h
    split at h
    · split at h
      · exact absurd h (by simp)
      · rename_i v2 hv2
        intro c hc
        rw [← take_takeWhile_length] at hc
        exact base32.b32_values_mem _ v2 hv2 c hc
    · exact absurd h (by simp)
  | case5 c0 c1 c2 c3 c4 c5 c6 c7 rest hv hrest =>
    simp [base32.decodeQuanta, hv, hrest] at h
  | case6 t hnil hcons =>
    unfold base32.decodeQuanta at h
    split at h
    · exact absurd rfl hnil
    · rename_i c0 c1 c2 c3 c4 c5 c6 c7 rest
      exact absurd (hcons c0 c1 c2 c3 c4 c5 c6 c7 rest rfl) id
    · exact absurd h (by simp)

/-! ## Public keys: decoding of text -/

/-- A byte string whose length is not 65 is refused with `ErrInvalidPublicKey`. -/
theorem PublicKeyFromBytes_wrong_length (lib : Crypto) (b : List Byte) (h : b.length ≠ 65) :
    PublicKeyFromBytes lib b = (none, some Error.ErrInvalidPublicKey) := by
  simp [PublicKeyFromBytes, h]

/-- C13, as amended: for each of base64, base32 and hex and every string `s`:
when the decoder refuses `s`, the `PublicKeyFrom…String` function returns a nil
key with the decoder's error; when the decoder accepts `s`, the result is that
of `PublicKeyFromBytes` on the decoded bytes, so a string that decodes to
other than 65 bytes is refused with `ErrInvalidPublicKey`. With the decoders of
the file, text that is not well formed is refused, where base64 and base32
text is judged without its carriage returns and line feeds: base64 text that
is not a multiple of four characters of the alphabet with at most two pads at
the end, base32 text with a character outside the alphabet before the first
pad or, without pad, not a multiple of eight characters, and hex text that is
not an even number of hexadecimal digits. -/
theorem PublicKeyFromString_decodes (enc : Encodings) (lib : Crypto) (s : List Byte) :
    (((∀ err, enc.base64.DecodeString s = .error err →
          PublicKeyFromB64String enc lib s = (none, some err)) ∧
        (∀ b, enc.base64.DecodeString s = .ok b →
          PublicKeyFromB64String enc lib s = PublicKeyFromBytes lib b ∧
          (b.length ≠ 65 →
            PublicKeyFromB64String enc lib s = (none, some Error.ErrInvalidPublicKey)))) ∧
      ((∀ err, enc.base32.DecodeString s = .error err →
          PublicKeyFromB32String enc lib s = (none, some err)) ∧
        (∀ b, enc.base32.DecodeString s = .ok b →
          PublicKeyFromB32String enc lib s = PublicKeyFromBytes lib b ∧
          (b.length ≠ 65 →
            PublicKeyFromB32String enc lib s = (none, some Error.ErrInvalidPublicKey)))) ∧
      ((∀ err, enc.hex.DecodeString s = .error err →
          PublicKeyFromHexString enc lib s = (none, some err)) ∧
        (∀ b, enc.hex.DecodeString s = .ok b →
          PublicKeyFromHexString enc lib s = PublicKeyFromBytes lib b ∧
          (b.length ≠ 65 →
            PublicKeyFromHexString enc lib s = (none, some Error.ErrInvalidPublicKey))))) ∧
    ((¬ base64.IsText (stripNewlines s) →
        ∃ err, PublicKeyFromB64String rfc4648 lib s = (none, some err)) ∧
      (¬ base32.IsText (stripNewlines s) →
        ∃ err, PublicKeyFromB32String rfc4648 lib s = (none, some err)) ∧
      (¬ hex.IsText s →
        ∃ err, PublicKeyFromHexString rfc4648 lib s = (none, some err))) := by
  refine ⟨⟨⟨?_, ?_⟩, ⟨?_, ?_⟩, ⟨?_, ?_⟩⟩, ⟨?_, ?_, ?_⟩⟩
  · intro err h
    simp only [PublicKeyFromB64String, h]
  · intro b h
    have e : PublicKeyFromB64String enc lib s = PublicKeyFromBytes lib b := by
      simp only [PublicKeyFromB64String, h]
    exact ⟨e, fun hlen => by rw [e, PublicKeyFromBytes_wrong_length lib b hlen]⟩
  · intro err h
    simp only [PublicKeyFromB32String, h]
  · intro b h
    have e : PublicKeyFromB32String enc lib s = PublicKeyFromBytes lib b := by
      simp only [PublicKeyFromB32String, h]
    exact ⟨e, fun hlen => by rw [e, PublicKeyFromBytes_wrong_length lib b hlen]⟩
  · intro err h
    simp only [PublicKeyFromHexString, h]
  · intro b h
    have e : PublicKeyFromHexString enc lib s = PublicKeyFromBytes lib b := by
      simp only [PublicKeyFromHexString, h]
    exact ⟨e, fun hlen => by rw [e, PublicKeyFromBytes_wrong_length lib b hlen]⟩
  · intro hbad
    cases hd : base64.DecodeString s with
    | error err => exact ⟨err, by simp only [PublicKeyFromB64String, rfc4648, hd]⟩
    | ok out => exact absurd (base64.b64_accepts_quanta _ out hd) hbad
  · intro hbad
    cases hd : base32.DecodeString s with
    | error err => exact ⟨err, by simp only [PublicKeyFromB32String, rfc4648, hd]⟩
    | ok out => exact absurd (base32.b32_accepts_quanta _ out hd) hbad
  · intro hbad
    cases hd : hex.DecodeString s with
    | error err => exact ⟨err, by simp only [PublicKeyFromHexString, rfc4648, hd]⟩
    | ok out => exact absurd (hex.hex_accepts_text _ out hd) hbad

set_option maxRecDepth 100000 in
/-- Witness for C13, over the decoders of the file: the text `0400` is not
base32 text (`0` is not in that alphabet) and the base32 decoder refuses it;
the hex decoder accepts it as the two bytes `04 00`, which
`PublicKeyFromBytes` refuses; the text `04z` is not hex text. -/
theorem PublicKeyFromString_decodes_witness :
    (rfc4648.base32.DecodeString (ascii "0400")
        = .error (Error.external "illegal base32 data") ∧
      rfc4648.hex.DecodeString (ascii "0400") = .ok [(4 : Byte), 0] ∧
      [(4 : Byte), 0].length ≠ 65 ∧
      ¬ base32.IsText (stripNewlines (ascii "0400")) ∧
      ¬ hex.IsText (ascii "04z")) ∧
    (PublicKeyFromB32String rfc4648 sm2p256v1.crypto (ascii "0400")
        = (none, some (Error.external "illegal base32 data")) ∧
      PublicKeyFromHexString rfc4648 sm2p256v1.crypto (ascii "0400")
        = (none, some Error.ErrInvalidPublicKey) ∧
      (∃ err, PublicKeyFromB32String rfc4648 sm2p256v1.crypto (ascii "0400")
        = (none, some err)) ∧
      (∃ err, PublicKeyFromHexString rfc4648 sm2p256v1.crypto (ascii "04z")
        = (none, some err))) :=
  ⟨⟨by decide, by decide, by decide, by decide, by decide⟩,
    (PublicKeyFromString_decodes rfc4648 sm2p256v1.crypto (ascii "0400")).1.2.1.1
      (Error.external "illegal base32 data") (by decide),
    ((PublicKeyFromString_decodes rfc4648 sm2p256v1.crypto (ascii "0400")).1.2.2.2
      [(4 : Byte), 0] (by decide)).2 (by decide),
    (PublicKeyFromString_decodes rfc4648 sm2p256v1.crypto (ascii "0400")).2.2.1 (by decide),
    (PublicKeyFromString_decodes rfc4648 sm2p256v1.crypto (ascii "04z")).2.2.2 (by decide)⟩

/-! ## Private keys: the record written -/

/-- C14: for a private key whose coordinates fit the field width,
`PrivateKey.ToBytes` hands the codec the record whose `Pub` is
`k.GetPublicKey().ToBytes()`, the 65 bytes `0x04 ‖ X ‖ Y`, and whose `D` is the
scalar of `k`; this holds for every codec. -/
theorem PrivateKey.ToBytes_record (k : PrivateKey) (h : k.GetPublicKey.InField) :
    ∃ kb, k.GetPublicKey.ToBytes = some kb ∧
      kb = (0x04 : Byte) :: (bigEndian 32 k.X.toNat ++ bigEndian 32 k.Y.toNat) ∧
      kb.length = 65 ∧
      ∀ codec : Codec, k.ToBytes codec = some (codec.toBytes { Pub := kb, D := some k.D }) := by
  have hkb := k.GetPublicKey.ToBytes_of_inField h
  refine ⟨_, hkb, rfl, ?_, fun codec => PrivateKey.ToBytes_eq codec k _ hkb⟩
  exact PublicKey.ToBytes_length _ _ hkb

set_option maxRecDepth 100000 in
/-- Witness for C14: the key of scalar 2 on sm2p256v1. -/
theorem PrivateKey.ToBytes_record_witness :
    sm2p256v1.key2.GetPublicKey.InField ∧
    ∃ kb, sm2p256v1.key2.GetPublicKey.ToBytes = some kb ∧
      kb = (0x04 : Byte) ::
        (bigEndian 32 sm2p256v1.key2.X.toNat ++ bigEndian 32 sm2p256v1.key2.Y.toNat) ∧
      kb.length = 65 ∧
      ∀ codec : Codec, sm2p256v1.key2.ToBytes codec
        = some (codec.toBytes { Pub := kb, D := some sm2p256v1.key2.D }) :=
  ⟨by decide, PrivateKey.ToBytes_record sm2p256v1.key2 (by decide)⟩

/-! ## Licenses: what is signed and what is verified -/

/-- C15: `NewLicense(k, d)` returns a nil License with an error exactly when
`SignWithSM2` fails on the SM3 digest of `d` under `k` with the nil identifier,
and the error is that of the primitive; when the primitive returns `(r, s)`
the License is `{d, r, s}`. `Verify` on that License hands the verification
primitive the same digest and the same nil identifier, with the stored
`R`, `S`. -/
theorem NewLicense_signs_digest (lib : Crypto) (rnd : List Byte) (k : PrivateKey)
    (d : List Byte) :
    (∀ err, lib.SignWithSM2 rnd k none (lib.sm3 d) = .error err →
      NewLicense lib rnd k d = (none, some err)) ∧
    (∀ r s, lib.SignWithSM2 rnd k none (lib.sm3 d) = .ok (r, s) →
      NewLicense lib rnd k d = (some { Data := d, R := some r, S := some s }, none)) ∧
    ((NewLicense lib rnd k d).2 ≠ none ↔
      ∃ err, lib.SignWithSM2 rnd k none (lib.sm3 d) = .error err) ∧
    (∀ L pk kb pub, NewLicense lib rnd k d = (some L, none) → pk.ToBytes = some kb →
      lib.NewPublicKey kb = .ok pub →
      L.Verify lib pk = some (lib.VerifyWithSM2 pub none (lib.sm3 d) L.R L.S, none)) := by
  have hE : ∀ err, lib.SignWithSM2 rnd k none (lib.sm3 d) = .error err →
      NewLicense lib rnd k d = (none, some err) := by
    intro err h
    simp only [NewLicense, License.hash, h]
  have hO : ∀ r s, lib.SignWithSM2 rnd k none (lib.sm3 d) = .ok (r, s) →
      NewLicense lib rnd k d = (some { Data := d, R := some r, S := some s }, none) := by
    intro r s h
    simp only [NewLicense, License.hash, h]
  refine ⟨hE, hO, ?_, ?_⟩
  · cases hs : lib.SignWithSM2 rnd k none (lib.sm3 d) with
    | error err => simp [hE err hs]
    | ok rs =>
      obtain ⟨r, s⟩ := rs
      simp [hO r s hs]
  · intro L pk kb pub hL hkb hpub
    cases hs : lib.SignWithSM2 rnd k none (lib.sm3 d) with
    | error err =>
      rw [hE err hs] at hL
      simp at hL
    | ok rs =>
      obtain ⟨r, s⟩ := rs
      rw [hO r s hs] at hL
      simp only [Prod.mk.injEq, Option.some.injEq, and_true] at hL
      subst hL
      exact License.Verify_of_accepted lib _ pk kb pub r s hkb hpub rfl rfl

set_option maxRecDepth 100000 in
/-- Witness for C15: without entropy the stand-in primitive fails and
`NewLicense` returns its error with a nil License. -/
theorem NewLicense_signs_digest_witness :
    (sm2p256v1.crypto.SignWithSM2 [] sm2p256v1.key2 none
        (sm2p256v1.crypto.sm3 (ascii "hello world")) = .error (Error.external "EOF")) ∧
    NewLicense sm2p256v1.crypto [] sm2p256v1.key2 (ascii "hello world")
      = (none, some (Error.external "EOF")) :=
  ⟨by decide,
    (NewLicense_signs_digest sm2p256v1.crypto [] sm2p256v1.key2 (ascii "hello world")).1
      (Error.external "EOF") (by decide)⟩

/-! ## Public keys: shape of the text forms -/

theorem hex.hex_length (b : List Byte) : (hex.EncodeToString b).length = 2 * b.length := by
  induction b with
  | nil => rfl
  | cons v rest ih => simp only [hex.EncodeToString, List.length_cons, ih]; omega

set_option maxRecDepth 100000 in
theorem hex.hex_digit_lower : ∀ n : Fin 16,
    (48 ≤ (hex.hextable.getD n.val 0).val ∧ (hex.hextable.getD n.val 0).val ≤ 57) ∨
    (97 ≤ (hex.hextable.getD n.val 0).val ∧ (hex.hextable.getD n.val 0).val ≤ 102) := by
  decide

/-- Every character of a hex encoding is one of `0`-`9`, `a`-`f`. -/
theorem hex.hex_chars (b : List Byte) :
    ∀ c ∈ hex.EncodeToString b,
      (48 ≤ c.val ∧ c.val ≤ 57) ∨ (97 ≤ c.val ∧ c.val ≤ 102) := by
  induction b with
  | nil => intro c hc; simp [hex.EncodeToString] at hc
  | cons v rest ih =>
    intro c hc
    simp only [hex.EncodeToString, List.mem_cons] at hc
    rcases hc with hc | hc | hc
    · rw [hc]; exact hex.hex_digit_lower ⟨v.val / 16, by omega⟩
    · rw [hc]; exact hex.hex_digit_lower ⟨v.val % 16, by omega⟩
    · exact ih c hc

set_option maxRecDepth 100000 in
theorem base64.b64_char_mem : ∀ n : Fin 64, base64.char n.val ∈ base64.encodeStd := by
  decide

theorem base64.b64_length (b : List Byte) :
    (base64.EncodeToString b).length = 4 * ((b.length + 2) / 3) := by
  induction b using base64.EncodeToString.induct with
  | case1 => rfl
  | case2 a => simp [base64.EncodeToString]
  | case3 a b => simp [base64.EncodeToString]
  | case4 a b c rest ih =>
    simp only [base64.EncodeToString, List.length_cons, ih]
    omega

/-- The base64 encoding of `3k + 2` bytes is alphabet characters followed by
one pad. -/
theorem base64.b64_shape (b : List Byte) (h : b.length % 3 = 2) :
    ∃ body, base64.EncodeToString b = body ++ [padChar] ∧
      ∀ c ∈ body, c ∈ base64.encodeStd := by
  induction b using base64.EncodeToString.induct with
  | case1 => simp at h
  | case2 a => simp at h
  | case3 a b =>
    refine ⟨[base64.char (a.val / 4), base64.char (a.val % 4 * 16 + b.val / 16),
      base64.char (b.val % 16 * 4)], by simp [base64.EncodeToString], ?_⟩
    intro c hc
    simp only [List.mem_cons, List.mem_singleton, List.not_mem_nil, or_false] at hc
    rcases hc with hc | hc | hc
    · rw [hc]; exact base64.b64_char_mem ⟨_, by omega⟩
    · rw [hc]; exact base64.b64_char_mem ⟨_, by omega⟩
    · rw [hc]; exact base64.b64_char_mem ⟨_, by omega⟩
  | case4 a b c rest ih =>
    have hr : rest.length % 3 = 2 := by
      simp only [List.length_cons] at h
      omega
    obtain ⟨body, hb, hmem⟩ := ih hr
    refine ⟨base64.char (a.val / 4) :: base64.char (a.val % 4 * 16 + b.val / 16) ::
      base64.char (b.val % 16 * 4 + c.val / 64) :: base64.char (c.val % 64) :: body, ?_, ?_⟩
    · simp only [base64.EncodeToString, hb, List.cons_append]
    · intro x hx
      simp only [List.mem_cons] at hx
      rcases hx with hx | hx | hx | hx | hx
      · rw [hx]; exact base64.b64_char_mem ⟨_, by omega⟩
      · rw [hx]; exact base64.b64_char_mem ⟨_, by omega⟩
      · rw [hx]; exact base64.b64_char_mem ⟨_, by omega⟩
      · rw [hx]; exact base64.b64_char_mem ⟨_, by omega⟩
      · exact hmem x hx

set_option maxRecDepth 100000 in
theorem base32.b32_char_mem : ∀ n : Fin 32, base32.char n.val ∈ base32.encodeStd := by
  decide

/-- The base32 encoding of `5k` bytes is `8k` alphabet characters. -/
theorem base32.b32_shape (b : List Byte) (h : b.length % 5 = 0) :
    (base32.EncodeToString b).length = 8 * (b.length / 5) ∧
      ∀ c ∈ base32.EncodeToString b, c ∈ base32.encodeStd := by
  induction b using base32.EncodeToString.induct with
  | case1 => exact ⟨rfl, fun c hc => by simp [base32.EncodeToString] at hc⟩
  | case2 a => simp at h
  | case3 a b => simp at h
  | case4 a b c => simp at h
  | case5 a b c d => simp at h
  | case6 a b c d e rest ih =>
    have hr : rest.length % 5 = 0 := by
      simp only [List.length_cons] at h
      omega
    obtain ⟨hlen, hmem⟩ := ih hr
    constructor
    · simp only [base32.EncodeToString, List.length_append, List.length_map, base32.quantum,
        List.length_cons, List.length_nil, hlen]
      omega
    · intro x hx
      simp only [base32.EncodeToString, List.mem_append, List.mem_map] at hx
      rcases hx with ⟨v, hv, hx⟩ | hx
      · rw [← hx]
        exact base32.b32_char_mem
          ⟨v, base32.b32_quantum_lt _ _ _ _ _ a.isLt b.isLt c.isLt d.isLt e.isLt v hv⟩
      · exact hmem x hx

/-- The three text forms of a 65-byte string under the RFC 4648 encoders. -/
theorem rfc4648_shape_65 (b : List Byte) (h : b.length = 65) :
    ((hex.EncodeToString b).length = 130 ∧
      ∀ c ∈ hex.EncodeToString b,
        (48 ≤ c.val ∧ c.val ≤ 57) ∨ (97 ≤ c.val ∧ c.val ≤ 102)) ∧
    ((base64.EncodeToString b).length = 88 ∧
      ∃ body, base64.EncodeToString b = body ++ [padChar] ∧ body.length = 87 ∧
        ∀ c ∈ body, c ∈ base64.encodeStd) ∧
    ((base32.EncodeToString b).length = 104 ∧
      ∀ c ∈ base32.EncodeToString b, c ∈ base32.encodeStd) := by
  refine ⟨⟨?_, hex.hex_chars b⟩, ⟨?_, ?_⟩, ?_⟩
  · rw [hex.hex_length, h]
  · rw [base64.b64_length, h]
  · obtain ⟨body, hb, hmem⟩ := base64.b64_shape b (by rw [h])
    have hl := base64.b64_length b
    rw [hb, h, List.length_append, List.length_singleton] at hl
    exact ⟨body, hb, by omega, hmem⟩
  · obtain ⟨hlen, hmem⟩ := base32.b32_shape b (by rw [h])
    rw [h] at hlen
    exact ⟨hlen, hmem⟩

/-- C16: for a public key with coordinates in `[0, 2^256)` and the RFC 4648
encoders, each text form is the encoding of `ToBytes()`; the hex form is 130
characters, each one of `0`-`9`, `a`-`f`; the base64 form is 88 characters, 87
of the standard alphabet followed by one `=`; the base32 form is 104
characters of the standard alphabet, with no `=`. -/
theorem PublicKey.text_shape (p : PublicKey) (h : p.InField) :
    ∃ b, p.ToBytes = some b ∧
      (p.ToHexString rfc4648 = some (hex.EncodeToString b) ∧
        (hex.EncodeToString b).length = 130 ∧
        ∀ c ∈ hex.EncodeToString b,
          (48 ≤ c.val ∧ c.val ≤ 57) ∨ (97 ≤ c.val ∧ c.val ≤ 102)) ∧
      (p.ToB64String rfc4648 = some (base64.EncodeToString b) ∧
        (base64.EncodeToString b).length = 88 ∧
        (∃ body, base64.EncodeToString b = body ++ [padChar] ∧ body.length = 87 ∧
          ∀ c ∈ body, c ∈ base64.encodeStd) ∧
        padChar ∉ base64.encodeStd) ∧
      (p.ToB32String rfc4648 = some (base32.EncodeToString b) ∧
        (base32.EncodeToString b).length = 104 ∧
        (∀ c ∈ base32.EncodeToString b, c ∈ base32.encodeStd) ∧
        padChar ∉ base32.encodeStd) := by
  have hb := p.ToBytes_of_inField h
  have hlen := p.ToBytes_length _ hb
  obtain ⟨⟨h16l, h16c⟩, ⟨h64l, h64s⟩, ⟨h32l, h32c⟩⟩ := rfc4648_shape_65 _ hlen
  refine ⟨_, hb, ⟨?_, h16l, h16c⟩, ⟨?_, h64l, h64s, by decide⟩,
    ⟨?_, h32l, h32c, by decide⟩⟩
  · simp only [PublicKey.ToHexString, hb, rfc4648]
  · simp only [PublicKey.ToB64String, hb, rfc4648]
  · simp only [PublicKey.ToB32String, hb, rfc4648]

set_option maxRecDepth 100000 in
/-- Witness for C16: the base point of sm2p256v1. -/
theorem PublicKey.text_shape_witness :
    (PublicKey.mk sm2p256v1.Gx sm2p256v1.Gy).InField ∧
    ∃ b, (PublicKey.mk sm2p256v1.Gx sm2p256v1.Gy).ToBytes = some b ∧
      ((PublicKey.mk sm2p256v1.Gx sm2p256v1.Gy).ToHexString rfc4648
          = some (hex.EncodeToString b) ∧
        (hex.EncodeToString b).length = 130 ∧
        ∀ c ∈ hex.EncodeToString b,
          (48 ≤ c.val ∧ c.val ≤ 57) ∨ (97 ≤ c.val ∧ c.val ≤ 102)) ∧
      ((PublicKey.mk sm2p256v1.Gx sm2p256v1.Gy).ToB64String rfc4648
          = some (base64.EncodeToString b) ∧
        (base64.EncodeToString b).length = 88 ∧
        (∃ body, base64.EncodeToString b = body ++ [padChar] ∧ body.length = 87 ∧
          ∀ c ∈ body, c ∈ base64.encodeStd) ∧
        padChar ∉ base64.encodeStd) ∧
      ((PublicKey.mk sm2p256v1.Gx sm2p256v1.Gy).ToB32String rfc4648
          = some (base32.EncodeToString b) ∧
        (base32.EncodeToString b).length = 104 ∧
        (∀ c ∈ base32.EncodeToString b, c ∈ base32.encodeStd) ∧
        padChar ∉ base32.encodeStd) :=
  ⟨by decide, PublicKey.text_shape ⟨sm2p256v1.Gx, sm2p256v1.Gy⟩ (by decide)⟩

/-! ## Public keys: the byte form is canonical -/

theorem foldl_digits_lt (xs : List Byte) :
    xs.foldl (fun acc (d : Byte) => acc * 256 + d.val) 0 < 256 ^ xs.length := by
  induction xs using List.reverseRecOn with
  | nil => simp
  | append_singleton xs b ih =>
    rw [foldl_digits_append, List.length_append, List.length_singleton, pow_succ]
    have hb := b.isLt
    omega

/-- Writing the value of a digit string in as many digits gives the string
back. -/
theorem bigEndian_foldl (xs : List Byte) :
    bigEndian xs.length (xs.foldl (fun acc (d : Byte) => acc * 256 + d.val) 0) = xs := by
  induction xs using List.reverseRecOn with
  | nil => rfl
  | append_singleton xs b ih =>
    have hb := b.isLt
    rw [foldl_digits_append, List.length_append, List.length_singleton]
    unfold bigEndian
    have h1 : (xs.foldl (fun acc (d : Byte) => acc * 256 + d.val) 0 * 256 + b.val) / 256
        = xs.foldl (fun acc (d : Byte) => acc * 256 + d.val) 0 := by omega
    have h2 : (xs.foldl (fun acc (d : Byte) => acc * 256 + d.val) 0 * 256 + b.val) % 256
        = b.val := by omega
    simp only [h1, h2, ih]

theorem FillBytes_SetBytes_self (xs : List Byte) (n : Nat) (h : xs.length = n) :
    FillBytes (SetBytes xs) n = some xs := by
  subst h
  have hlt := foldl_digits_lt xs
  have hn : (SetBytes xs).natAbs = xs.foldl (fun acc (d : Byte) => acc * 256 + d.val) 0 :=
    Int.natAbs_ofNat _
  unfold FillBytes
  rw [hn, if_pos hlt, bigEndian_foldl]

/-- The parts `0x04`, `b[1:33]` and `b[33:65]` of a 65-byte string put
together again. -/
theorem slices_join (b : List Byte) (hlen : b.length = 65) (htag : b[0]? = some (0x04 : Byte)) :
    (slice b 1 33).length = 32 ∧ (slice b 33 65).length = 32 ∧
      (0x04 : Byte) :: (slice b 1 33 ++ slice b 33 65) = b := by
  cases b with
  | nil => simp at hlen
  | cons t rest =>
    simp only [List.length_cons] at hlen
    have hr : rest.length = 64 := by omega
    simp only [List.getElem?_cons_zero, Option.some.injEq] at htag
    subst htag
    have h2 : List.take 32 (List.drop 32 rest) = List.drop 32 rest := by
      apply List.take_of_length_le
      simp [hr]
    simp only [slice, List.drop_succ_cons, List.drop_zero, h2, List.take_append_drop,
      List.length_take, List.length_drop, hr]
    simp

/-- C17: when `PublicKeyFromBytes` accepts `b` with key `p`, `p.ToBytes()` is
`b` byte for byte; so any other byte string accepted with the same key is
`b` itself. -/
theorem PublicKeyFromBytes_canonical (lib : Crypto) (b : List Byte) (p : PublicKey)
    (h : PublicKeyFromBytes lib b = (some p, none)) :
    p.ToBytes = some b ∧
      ∀ b2, PublicKeyFromBytes lib b2 = (some p, none) → b2 = b := by
  have key : ∀ c, PublicKeyFromBytes lib c = (some p, none) → p.ToBytes = some c := by
    intro c hc
    unfold PublicKeyFromBytes at hc
    split at hc
    · simp at hc
    · rename_i hguard
      simp only [Bool.or_eq_true, decide_eq_true_eq, not_or, Decidable.not_not] at hguard
      obtain ⟨hlen, htag⟩ := hguard
      dsimp only at hc
      split at hc
      · simp at hc
      · simp only [Prod.mk.injEq, Option.some.injEq, and_true] at hc
        obtain ⟨hx, hy, hjoin⟩ := slices_join c hlen htag
        rw [← hc]
        simp only [PublicKey.ToBytes, FillBytes_SetBytes_self _ 32 hx,
          FillBytes_SetBytes_self _ 32 hy, hjoin]
  refine ⟨key b h, fun b2 h2 => ?_⟩
  have e1 := key b h
  have e2 := key b2 h2
  rw [e1] at e2
  exact (Option.some.inj e2).symm

set_option maxRecDepth 100000 in
/-- Witness for C17: the 65 bytes of `2 · G`. -/
theorem PublicKeyFromBytes_canonical_witness :
    PublicKeyFromBytes sm2p256v1.crypto sm2p256v1.key2Pub
        = (some sm2p256v1.key2.GetPublicKey, none) ∧
    (sm2p256v1.key2.GetPublicKey.ToBytes = some sm2p256v1.key2Pub ∧
      ∀ b2, PublicKeyFromBytes sm2p256v1.crypto b2
        = (some sm2p256v1.key2.GetPublicKey, none) → b2 = sm2p256v1.key2Pub) :=
  ⟨by decide,
    PublicKeyFromBytes_canonical sm2p256v1.crypto sm2p256v1.key2Pub
      sm2p256v1.key2.GetPublicKey (by decide)⟩

/-! ## Inputs at which two claims fail as stated -/

set_option maxRecDepth 1000000 in
/-- Counterexample to C5 as stated: the key with `D = N - 1` and
`(X, Y) = (Gx, P - Gy)`. It satisfies `(X, Y) = D · G` and its point is on the
curve, and the codec writes its record and reads it back; but
`sm2.NewPrivateKeyFromInt` refuses the scalar `N - 1` (the valid range is
`1 .. N - 2`), so `PrivateKeyFromBytes(k.ToBytes())` returns the library's
error and no key. -/
theorem PrivateKey_roundtrip_counterexample :
    sm2p256v1.mul 256 sm2p256v1.keyLast.D.toNat (some (sm2p256v1.Gx, sm2p256v1.Gy))
        = some (sm2p256v1.keyLast.X.toNat, sm2p256v1.keyLast.Y.toNat) ∧
    sm2p256v1.crypto.IsOnCurve sm2p256v1.keyLast.X sm2p256v1.keyLast.Y = true ∧
    sm2p256v1.keyLast.ToBytes lengthPrefixed
        = some ((65 : Byte) :: (((0x04 : Byte) :: (bigEndian 32 sm2p256v1.Gx ++
            bigEndian 32 (sm2p256v1.P - sm2p256v1.Gy))) ++ bigEndian 32 (sm2p256v1.N - 1)),
          none) ∧
    lengthPrefixed.fromBytes { Pub := [], D := none }
        ((65 : Byte) :: (((0x04 : Byte) :: (bigEndian 32 sm2p256v1.Gx ++
            bigEndian 32 (sm2p256v1.P - sm2p256v1.Gy))) ++ bigEndian 32 (sm2p256v1.N - 1)))
      = ({ Pub := (0x04 : Byte) :: (bigEndian 32 sm2p256v1.Gx ++
            bigEndian 32 (sm2p256v1.P - sm2p256v1.Gy)),
           D := some sm2p256v1.keyLast.D }, none) ∧
    PrivateKeyFromBytes lengthPrefixed sm2p256v1.crypto
        ((65 : Byte) :: (((0x04 : Byte) :: (bigEndian 32 sm2p256v1.Gx ++
            bigEndian 32 (sm2p256v1.P - sm2p256v1.Gy))) ++ bigEndian 32 (sm2p256v1.N - 1)))
      = some (none, some (Error.external "sm2: invalid private key")) :=
  ⟨by decide!, by decide, by decide, by decide, by decide⟩

set_option maxRecDepth 100000 in
/-- Counterexample to C13 as stated: the base64 text of the 65 bytes of
`2 · G` followed by a line feed, and the base32 text followed by a carriage
return and a line feed. Neither character is in the alphabet or is the pad,
yet the decoders skip them and both functions return the key with a nil
error. -/
theorem PublicKeyFromString_decodes_counterexample :
    ((10 : Byte) ∈ base64.EncodeToString sm2p256v1.key2Pub ++ [(10 : Byte)] ∧
      (10 : Byte) ∉ base64.encodeStd ∧ (10 : Byte) ≠ padChar ∧
      PublicKeyFromB64String rfc4648 sm2p256v1.crypto
          (base64.EncodeToString sm2p256v1.key2Pub ++ [(10 : Byte)])
        = (some sm2p256v1.key2.GetPublicKey, none)) ∧
    ((13 : Byte) ∈ base32.EncodeToString sm2p256v1.key2Pub ++ [(13 : Byte), 10] ∧
      (13 : Byte) ∉ base32.encodeStd ∧ (13 : Byte) ≠ padChar ∧
      PublicKeyFromB32String rfc4648 sm2p256v1.crypto
          (base32.EncodeToString sm2p256v1.key2Pub ++ [(13 : Byte), 10])
        = (some sm2p256v1.key2.GetPublicKey, none)) :=
  ⟨⟨by decide, by decide, by decide, by decide⟩,
    ⟨by decide, by decide, by decide, by decide⟩⟩

end Lk
